import Mathlib

/-!
Verification development for the task dependency graph engine of
`.ai/scripts/parse_tasks.py`: a shallow embedding of the `Task` data model,
the markdown parser (`parse_tasks`) and the three scheduler functions
(`get_executable_tasks`, `topological_sort`, `get_parallel_tasks`),
together with proofs of the specified properties.
-/

namespace ParseTasks

/-- The ASCII fragment of Python's `\s` character class.  Python's `re`
additionally matches some non-ASCII Unicode whitespace, so an
`isPySpace a = true` hypothesis is conservative (every such character is
`\s` whitespace in the source), while negative uses would have to be
confined to the ASCII range. -/
def isPySpace (c : Char) : Bool :=
  c = ' ' || c = '\t' || c = '\n' || c = '\r' || c = '\x0b' || c = '\x0c'

/-- The ASCII fragment of Python's `\d` character class.  Python's `re`
matches every Unicode decimal digit (category Nd), so `isPyDigit a = true`
implies that the source's `\d` matches `a`, while a negative
`isPyDigit a = false` coincides with the source only for ASCII `a`
(`a.toNat < 128`); a theorem relying on such a negative hypothesis assumes
the ASCII bound explicitly. -/
def isPyDigit (c : Char) : Bool :=
  '0' ≤ c && c ≤ '9'

/-- Python `str.strip()` on a character list. -/
def pyStrip (l : List Char) : List Char :=
  ((l.dropWhile isPySpace).reverse.dropWhile isPySpace).reverse

/-- Python `str.split(sep)` with a one-character separator: split at every
occurrence, keeping empty parts (`"".split(sep) == [""]`). -/
def splitOnChar (sep : Char) : List Char → List (List Char)
  | [] => [[]]
  | c :: cs =>
    match splitOnChar sep cs with
    | [] => [[]]
    | l :: ls => if c = sep then [] :: l :: ls else (c :: l) :: ls

/-- Lexicographic (code-point) order on character lists: the order Python
uses to compare strings. -/
def charListLe : List Char → List Char → Bool
  | [], _ => true
  | _ :: _, [] => false
  | a :: as, b :: bs =>
    if a.toNat < b.toNat then true
    else if b.toNat < a.toNat then false
    else charListLe as bs

/-- Python's `<=` on strings (lexicographic by code point), as used by
`list.sort()` on task ids. -/
def strLe (a b : String) : Bool :=
  charListLe a.data b.data

/-- Strict lexicographic (code-point) order on character lists. -/
def charListLt : List Char → List Char → Bool
  | [], [] => false
  | [], _ :: _ => true
  | _ :: _, [] => false
  | a :: as, b :: bs =>
    if a.toNat < b.toNat then true
    else if b.toNat < a.toNat then false
    else charListLt as bs

/-- Python's `<` on strings (lexicographic by code point). -/
def strLt (a b : String) : Bool :=
  charListLt a.data b.data

/-- The `Task` class of `parse_tasks.py`: id, title, completion flag,
dependency ids, nested subtasks. -/
structure Task where
  id : String
  title : String
  completed : Bool
  depends_on : List String
  subtasks : List Task

/-- `re.match(r'^- \[([ x])\]\s*(\d+)\.\s*(.+)$', line)`, returning the
checkbox character, the id (group 2) and the already-stripped title
(`group(3).strip()` as used at the call site).

The greedy quantifiers need no general backtracking here: `\s*` cannot give
back characters to `\d+` (a space is not a digit), `\d+` cannot give back
characters to `\.` (a digit is not a dot), and `\s*(.+)$` succeeds exactly
when the remainder after the dot is nonempty — when the remainder is
whitespace-only the engine backtracks `\s*` by one character and `(.+)`
captures trailing whitespace, which the subsequent `.strip()` erases, so the
stripped title is `pyStrip` of the whole remainder in every successful case.
Lines come from `content.split('\n')` and therefore contain no newline. -/
def matchMainTask (line : String) : Option (Char × String × String) :=
  match line.data with
  | '-' :: ' ' :: '[' :: c :: ']' :: rest =>
    if c = ' ' || c = 'x' then
      let afterWs := rest.dropWhile isPySpace
      let digits := afterWs.takeWhile isPyDigit
      match afterWs.dropWhile isPyDigit with
      | '.' :: rest2 =>
        if digits ≠ [] ∧ rest2 ≠ [] then some (c, ⟨digits⟩, ⟨pyStrip rest2⟩)
        else none
      | _ => none
    else none
  | _ => none

/-- The `\*?` of the subtask pattern: consume one optional leading
asterisk. -/
def skipStar : List Char → List Char
  | '*' :: r => r
  | l => l

/-- `re.match(r'^\s+- \[([ x])\]\*?\s*(\d+\.\d+)\s*(.+)$', line)`, returning
the checkbox character, the dotted id (group 2) and the stripped title.

Backtracking analysis as for `matchMainTask`; the one extra case is the
second `\d+` of the id group: when the line ends right after the digit run,
the engine gives the last digit back to `(.+)`, which requires at least two
digits after the dot. -/
def matchSubtask (line : String) : Option (Char × String × String) :=
  let ws := line.data.takeWhile isPySpace
  let rest := line.data.dropWhile isPySpace
  if ws = [] then none else
  match rest with
  | '-' :: ' ' :: '[' :: c :: ']' :: rest2 =>
    if c = ' ' || c = 'x' then
      let rest3 := skipStar rest2
      let afterWs := rest3.dropWhile isPySpace
      let d1 := afterWs.takeWhile isPyDigit
      match afterWs.dropWhile isPyDigit with
      | '.' :: r6 =>
        let d2 := r6.takeWhile isPyDigit
        let r7 := r6.dropWhile isPyDigit
        if d1 = [] ∨ d2 = [] then none
        else if r7 ≠ [] then some (c, ⟨d1 ++ '.' :: d2⟩, ⟨pyStrip r7⟩)
        else if 2 ≤ d2.length then
          some (c, ⟨d1 ++ '.' :: d2.dropLast⟩, ⟨d2.drop (d2.length - 1)⟩)
        else none
      | _ => none
    else none
  | _ => none

/-- `re.match(r'^\s+-?\s*_depends_on:\s*([^_]+)_', line)` followed by the
call-site post-processing
`[d.strip() for d in m.group(1).strip().split(',') if d.strip()]`.

The captured group is the maximal run of non-underscore characters ending at
the first later underscore; the corner case where that run is pure leading
whitespace yields an empty id list, observationally identical to no match,
and is folded into the `none` branch. -/
def matchDepends (line : String) : Option (List String) :=
  let ws := line.data.takeWhile isPySpace
  let rest := line.data.dropWhile isPySpace
  if ws = [] then none else
  let rest2 := match rest with | '-' :: r => r | _ => rest
  let rest3 := rest2.dropWhile isPySpace
  if rest3.take 12 = "_depends_on:".data then
    let R := (rest3.drop 12).dropWhile isPySpace
    let M := R.takeWhile (fun c => c ≠ '_')
    if M ≠ [] ∧ R.dropWhile (fun c => c ≠ '_') ≠ [] then
      some (((splitOnChar ',' (pyStrip M)).map
        (fun s => String.mk (pyStrip s))).filter (fun s => s ≠ ""))
    else none
  else none

/-- Construction of a main task: `Task(task_id, title, completed)` with
`completed = (group(1) == 'x')`. -/
def mkMainTask (c : Char) (tid title : String) : Task :=
  ⟨tid, title, c == 'x', [], []⟩

/-- Apply `f` to the last element of a list (the Python code mutates
`current_task`, which is always the most recently appended task). -/
def modifyLast (f : Task → Task) : List Task → List Task
  | [] => []
  | [t] => [f t]
  | t :: ts => t :: modifyLast f ts

/-- `current_task.subtasks.append(Task(subtask_id, title, completed))`. -/
def addSubtask (c : Char) (sid stitle : String) (t : Task) : Task :=
  { t with subtasks := t.subtasks ++ [⟨sid, stitle, c == 'x', [], []⟩] }

/-- `current_task.depends_on.extend(dep_ids)`. -/
def addDepends (deps : List String) (t : Task) : Task :=
  { t with depends_on := t.depends_on ++ deps }

/-- One iteration of the `for line in lines` loop of `parse_tasks`:
try the main-task pattern, then (given a current task) the subtask pattern,
then (given a current task) the dependency pattern; otherwise ignore the
line.  The `current_task` pointer is `None` exactly when no task has been
parsed yet, and otherwise refers to the last task of the accumulator. -/
def stepLine (tasks : List Task) (line : String) : List Task :=
  match matchMainTask line with
  | some (c, tid, title) => tasks ++ [mkMainTask c tid title]
  | none =>
    match matchSubtask line, tasks with
    | some (c, sid, stitle), _ :: _ => modifyLast (addSubtask c sid stitle) tasks
    | _, _ =>
      match matchDepends line, tasks with
      | some deps, _ :: _ => modifyLast (addDepends deps) tasks
      | _, _ => tasks

/-- The body of `parse_tasks` after `content.split('\n')`. -/
def parse_tasks_lines (lines : List String) : List Task :=
  lines.foldl stepLine []

/-- `parse_tasks(content)`: `lines = content.split('\n')`, then the line
loop. -/
def parse_tasks (content : String) : List Task :=
  parse_tasks_lines ((splitOnChar '\n' content.data).map String.mk)

/-- Lookup in `task_map = {t.id: t for t in tasks}`: a dict comprehension
keeps the last task with a given id. -/
def taskMapGet (tasks : List Task) (d : String) : Option Task :=
  tasks.reverse.find? (fun t => t.id == d)

/-- The dependency check of `get_executable_tasks`:
`dep_id in task_map and not task_map[dep_id].completed` falsifies
satisfaction. -/
def depSatisfied (tasks : List Task) (d : String) : Bool :=
  match taskMapGet tasks d with
  | some u => u.completed
  | none => true

/-- `get_executable_tasks(tasks)`: not-completed tasks whose declared
dependencies are each satisfied, in input order. -/
def get_executable_tasks (tasks : List Task) : List Task :=
  tasks.filter (fun t => !t.completed && t.depends_on.all (depSatisfied tasks))

/-- The dependency graph: a Python `dict` from task id to a `set` of
dependency ids, modelled as an association list with insertion-ordered,
duplicate-free keys and insertion-ordered, duplicate-free value lists
(only membership and cardinality of the sets are ever observed). -/
abbrev Graph := List (String × List String)

/-- `graph[task.id]` on a `defaultdict(set)`: materialise the key. -/
def addKey (g : Graph) (k : String) : Graph :=
  if g.any (fun p => p.1 == k) then g else g ++ [(k, [])]

/-- `completed_ids.add(i)` / `graph[k].add(d)` on a set, modelled as
append-if-absent. -/
def addId (cs : List String) (i : String) : List String :=
  if i ∈ cs then cs else cs ++ [i]

/-- `graph[task.id].add(dep)`. -/
def addDep (g : Graph) (k d : String) : Graph :=
  g.map (fun p => if p.1 == k then (p.1, addId p.2 d) else p)

/-- The body of the `for task in tasks` loop of `build_dependency_graph`:
materialise the key, then add every declared dependency to its set. -/
def buildStep (g : Graph) (t : Task) : Graph :=
  t.depends_on.foldl (fun g2 d => addDep g2 t.id d) (addKey g t.id)

/-- `build_dependency_graph(tasks)`. -/
def build_dependency_graph (tasks : List Task) : Graph :=
  tasks.foldl buildStep []

/-- The dependency set stored for key `k` (empty for a missing key). -/
def lookupDeps (g : Graph) (k : String) : List String :=
  ((g.find? (fun p => p.1 == k)).map Prod.snd).getD []

/-- The initial `in_degree` table: each key's degree is incremented once per
element of its dependency set; a `defaultdict(int)` reads 0 elsewhere. -/
def initInDegree (g : Graph) : String → Int :=
  fun k => ((lookupDeps g k).length : Int)

/-- One entry of the inner `for task_id, deps in graph.items()` pass of
Kahn's algorithm: if `current` is among the entry's dependency set,
decrement the entry's in-degree, and collect its key when the in-degree
just reached zero and the key is not already among the result ids. -/
def decStep (current : String) (resultIds : List String)
    (acc : (String → Int) × List String) (p : String × List String) :
    (String → Int) × List String :=
  if current ∈ p.2 then
    let indeg2 : String → Int := fun k => if k = p.1 then acc.1 p.1 - 1 else acc.1 k
    if indeg2 p.1 = 0 ∧ p.1 ∉ resultIds then (indeg2, acc.2 ++ [p.1])
    else (indeg2, acc.2)
  else acc

/-- The inner `for task_id, deps in graph.items()` pass of Kahn's algorithm. -/
def decrementPass (g : Graph) (current : String) (indeg : String → Int)
    (resultIds : List String) : (String → Int) × List String :=
  g.foldl (decStep current resultIds) (indeg, [])

/-- The `while queue` loop of `topological_sort`: sort the queue
(`queue.sort()`: ascending lexicographic order of the id strings — the
queue never holds duplicates, proved below, so any correct sort produces
this insertion sort's output), pop the head, append the corresponding task
to the result, and run the decrement pass.  The loop performs at most one
iteration per graph key (each key enters the queue at most once, proved
below), so fuel `g.length` never runs out on the states reachable from
`topological_sort`. -/
def kahnLoop (tasks : List Task) (g : Graph) :
    Nat → List String → (String → Int) → List Task → List Task
  | 0, _, _, result => result
  | fuel + 1, queue, indeg, result =>
    match List.insertionSort (fun a b => strLe a b = true) queue with
    | [] => result
    | current :: queueRest =>
      let result2 := match taskMapGet tasks current with
        | some t => result ++ [t]
        | none => result
      let pass := decrementPass g current indeg (result2.map Task.id)
      kahnLoop tasks g fuel (queueRest ++ pass.2) pass.1 result2

/-- `topological_sort(tasks)`: Kahn's algorithm with a lexicographically
sorted ready queue. -/
def topological_sort (tasks : List Task) : List Task :=
  let g := build_dependency_graph tasks
  let indeg := initInDegree g
  kahnLoop tasks g g.length ((g.map Prod.fst).filter (fun k => indeg k == 0)) indeg []

/-- The readiness check of `get_parallel_tasks`:
`all(dep_id in completed_ids or dep_id not in task_map for dep_id in task.depends_on)`. -/
def readyTask (tasks : List Task) (completedIds : List String) (t : Task) : Bool :=
  t.depends_on.all (fun d => completedIds.contains d || !(tasks.any (fun u => u.id == d)))

lemma length_filter_not_lt {α : Type} {p : α → Bool} {l : List α}
    (h : l.filter p ≠ []) : (l.filter (fun t => !(p t))).length < l.length := by
  induction l with
  | nil => simp at h
  | cons a l ih =>
    by_cases hp : p a
    · have h1 : (List.filter (fun t => !(p t)) (a :: l)).length
          = (List.filter (fun t => !(p t)) l).length := by
        simp [List.filter_cons, hp]
      have h2 : (List.filter (fun t => !(p t)) l).length ≤ l.length :=
        List.length_filter_le _ _
      simp only [h1, List.length_cons]
      omega
    · have hp' : p a = false := by simpa using hp
      have hne : l.filter p ≠ [] := by
        intro hnil
        apply h
        simp [List.filter_cons, hp', hnil]
      have := ih hne
      simp only [List.filter_cons, hp', Bool.not_false, List.length_cons, if_pos]
      simpa using Nat.succ_lt_succ this

/-- The `while remaining` loop of `get_parallel_tasks`: collect all ready
tasks into a wave; stop when no task is ready (cycle); otherwise mark the
wave's ids completed and drop the wave from `remaining` (exactly the ready
tasks are removed, by object identity, so the ready filter and its negation
partition `remaining`).  Every iteration with a nonempty wave strictly
shrinks `remaining`, so fuel `remaining.length + 1` (as passed by
`get_parallel_tasks`) never runs out before a terminal branch. -/
def parallelLoop (tasks : List Task) :
    Nat → List Task → List String → List (List Task)
  | 0, _, _ => []
  | _ + 1, [], _ => []
  | fuel + 1, r :: rs, completedIds =>
    match (r :: rs).filter (readyTask tasks completedIds) with
    | [] => []
    | wave@(_ :: _) =>
      wave :: parallelLoop tasks fuel
        ((r :: rs).filter (fun t => !(readyTask tasks completedIds t)))
        (wave.foldl (fun cs t => addId cs t.id) completedIds)

/-- `get_parallel_tasks(tasks)`. -/
def get_parallel_tasks (tasks : List Task) : List (List Task) :=
  let remaining := tasks.filter (fun t => !t.completed)
  parallelLoop tasks (remaining.length + 1) remaining
    ((tasks.filter (fun t => t.completed)).foldl (fun cs t => addId cs t.id) [])

end ParseTasks

namespace ParseTasks

/-! ### Basic facts about the parser step on an empty accumulator -/

lemma stepLine_nil (line : String) :
    stepLine [] line =
      match matchMainTask line with
      | some (c, tid, title) => [mkMainTask c tid title]
      | none => [] := by
  cases h1 : matchMainTask line with
  | some m =>
    obtain ⟨c, tid, title⟩ := m
    simp [stepLine, h1]
  | none =>
    cases h2 : matchSubtask line with
    | some m =>
      obtain ⟨c, sid, stitle⟩ := m
      cases h3 : matchDepends line <;> simp [stepLine, h1, h2, h3]
    | none =>
      cases h3 : matchDepends line <;> simp [stepLine, h1, h2, h3]

/-- C8: the parser and all three scheduler functions are total (they are
plain functions in this embedding, defined on every input) and return empty
results on empty input: `parse` of the empty string is `[]`, and each
scheduler applied to the empty task list returns an empty list (of lists).
-/
theorem parse_and_schedulers_empty :
    parse_tasks "" = [] ∧
    get_executable_tasks [] = [] ∧
    topological_sort [] = [] ∧
    get_parallel_tasks [] = [] :=
  ⟨rfl, rfl, rfl, rfl⟩

/-- The claim that `[X]` (uppercase) is accepted as a completed main-task
checkbox is false: the checkbox character class of `task_pattern` is
`[ x]`, compiled without `re.IGNORECASE`, so `- [X] 1. Done` matches
nothing and produces no task at all. -/
theorem uppercase_checkbox_produces_no_task :
    parse_tasks "- [X] 1. Done" = [] := rfl

/-- C6 (amended): the main-task checkbox is validated strictly and
case-sensitively.  For a single line `- [c] 1. Title` with an arbitrary
checkbox character `c`, a task is produced exactly when `c` is a space or
a lowercase `x`; `[x]` yields `completed = true` and `[ ]` yields
`completed = false`; every other character (including uppercase `X`)
matches nothing, and so does `[]` without a space. -/
theorem main_checkbox_strict_case_sensitive :
    (∀ c : Char,
      parse_tasks_lines [String.mk ('-' :: ' ' :: '[' :: c :: ']' :: " 1. Title".data)] =
        if c = 'x' then [⟨"1", "Title", true, [], []⟩]
        else if c = ' ' then [⟨"1", "Title", false, [], []⟩]
        else []) ∧
    parse_tasks "- [] 1. Title" = [] := by
  refine ⟨fun c => ?_, rfl⟩
  by_cases hx : c = 'x'
  · subst hx; rfl
  · by_cases hs : c = ' '
    · subst hs; rfl
    · have hnone : matchMainTask (String.mk ('-' :: ' ' :: '[' :: c :: ']' :: " 1. Title".data)) = none := by
        simp [matchMainTask, hx, hs]
      simp [parse_tasks_lines, stepLine_nil, hnone, hx, hs]

/-- The claim that `- [ ] 1.Title` (no whitespace after the dot) fails the
main-task pattern is false: `task_pattern` uses `\s*` after the literal
dot, so zero whitespace is allowed and the line parses to a task with id
`"1"` and title `"Title"`. -/
theorem dot_without_space_still_matches :
    parse_tasks "- [ ] 1.Title" = [⟨"1", "Title", false, [], []⟩] := rfl

/-- C9 (amended): a main-task line requires the decimal id to be followed
by a literal `.`; the whitespace after the dot is optional (`\s*`), so
`- [ ] 1.Title` does match, with title `Title`.  A checkbox line without a
numeric id (e.g. `- [ ] No number here`) is ignored entirely with no
partial parsing. -/
theorem main_task_dot_then_optional_whitespace :
    parse_tasks "- [ ] 1.Title" = [⟨"1", "Title", false, [], []⟩] ∧
    parse_tasks "- [ ] No number here" = [] :=
  ⟨rfl, rfl⟩

end ParseTasks

namespace ParseTasks

/-! ### Lookup in `task_map` -/

lemma taskMapGet_some {tasks : List Task} {d : String} {u : Task}
    (h : taskMapGet tasks d = some u) : u ∈ tasks ∧ u.id = d := by
  unfold taskMapGet at h
  have hm := List.mem_of_find?_eq_some h
  have hp := List.find?_some h
  exact ⟨List.mem_reverse.1 hm, by simpa using hp⟩

lemma taskMapGet_none {tasks : List Task} {d : String} :
    taskMapGet tasks d = none ↔ ∀ u ∈ tasks, u.id ≠ d := by
  unfold taskMapGet
  rw [List.find?_eq_none]
  constructor
  · intro h u hu
    have := h u (List.mem_reverse.2 hu)
    simpa using this
  · intro h u hu
    have := h u (List.mem_reverse.1 hu)
    simpa using this

lemma taskMapGet_of_nodup {tasks : List Task} {u : Task}
    (hids : (tasks.map Task.id).Nodup) (h : u ∈ tasks) :
    taskMapGet tasks u.id = some u := by
  cases hfind : taskMapGet tasks u.id with
  | none => exact absurd rfl (taskMapGet_none.1 hfind u h)
  | some v =>
    obtain ⟨hv, hvid⟩ := taskMapGet_some hfind
    rw [List.inj_on_of_nodup_map hids hv h hvid]

/-- C1: a task `t` appears in `get_executable_tasks tasks` iff `t` is not
completed and every id `d` in `t.depends_on` is either not the id of any
parsed main task or the (unique, by the data-model invariant that main-task
ids are distinct) task with id `d` is completed; the result preserves input
document order (it is a sublist of the input). -/
theorem executable_filter_correct (tasks : List Task)
    (hids : (tasks.map Task.id).Nodup) :
    List.Sublist (get_executable_tasks tasks) tasks ∧
    ∀ t ∈ tasks,
      (t ∈ get_executable_tasks tasks ↔
        t.completed = false ∧
          ∀ d ∈ t.depends_on, ∀ u ∈ tasks, u.id = d → u.completed = true) := by
  constructor
  · exact List.filter_sublist tasks
  · intro t ht
    rw [get_executable_tasks, List.mem_filter]
    simp only [Bool.and_eq_true, Bool.not_eq_true', List.all_eq_true]
    constructor
    · rintro ⟨-, hc, hall⟩
      refine ⟨hc, fun d hd u hu hud => ?_⟩
      have hsat := hall d hd
      rw [depSatisfied, ← hud, taskMapGet_of_nodup hids hu] at hsat
      exact hsat
    · rintro ⟨hc, hdeps⟩
      refine ⟨ht, hc, fun d hd => ?_⟩
      rw [depSatisfied]
      cases hg : taskMapGet tasks d with
      | none => rfl
      | some u =>
        obtain ⟨hu, hud⟩ := taskMapGet_some hg
        exact hdeps d hd u hu hud

theorem executable_filter_correct_witness :
    ((([⟨"1", "A", true, [], []⟩, ⟨"2", "B", false, ["1"], []⟩] : List Task).map Task.id).Nodup) ∧
    (List.Sublist
        (get_executable_tasks [⟨"1", "A", true, [], []⟩, ⟨"2", "B", false, ["1"], []⟩])
        [⟨"1", "A", true, [], []⟩, ⟨"2", "B", false, ["1"], []⟩] ∧
      ∀ t ∈ ([⟨"1", "A", true, [], []⟩, ⟨"2", "B", false, ["1"], []⟩] : List Task),
        (t ∈ get_executable_tasks [⟨"1", "A", true, [], []⟩, ⟨"2", "B", false, ["1"], []⟩] ↔
          t.completed = false ∧
            ∀ d ∈ t.depends_on,
              ∀ u ∈ ([⟨"1", "A", true, [], []⟩, ⟨"2", "B", false, ["1"], []⟩] : List Task),
                u.id = d → u.completed = true)) :=
  ⟨by decide, executable_filter_correct _ (by decide)⟩

/-! ### The parse result projected to (id, title, completed) -/

lemma map_proj_modifyLast (f : Task → Task)
    (hf : ∀ t, ((f t).id, (f t).title, (f t).completed) = (t.id, t.title, t.completed)) :
    ∀ l : List Task,
      (modifyLast f l).map (fun t => (t.id, t.title, t.completed))
        = l.map (fun t => (t.id, t.title, t.completed))
  | [] => rfl
  | [t] => by simp [modifyLast, hf t]
  | t :: t2 :: ts => by
    simp only [modifyLast, List.map_cons]
    rw [map_proj_modifyLast f hf (t2 :: ts)]
    simp

lemma stepLine_proj (acc : List Task) (line : String) :
    (stepLine acc line).map (fun t => (t.id, t.title, t.completed))
      = acc.map (fun t => (t.id, t.title, t.completed)) ++
        (match matchMainTask line with
         | some m => [(m.2.1, m.2.2, m.1 == 'x')]
         | none => []) := by
  cases h1 : matchMainTask line with
  | some m =>
    obtain ⟨c, tid, ti⟩ := m
    simp [stepLine, h1, mkMainTask]
  | none =>
    cases h2 : matchSubtask line with
    | some m =>
      obtain ⟨c, sid, sti⟩ := m
      cases acc with
      | nil => cases h3 : matchDepends line <;> simp [stepLine, h1, h2, h3]
      | cons a as =>
        simp only [stepLine, h1, h2]
        rw [map_proj_modifyLast (addSubtask c sid sti) (fun t => rfl) (a :: as)]
        simp
    | none =>
      cases h3 : matchDepends line with
      | some deps =>
        cases acc with
        | nil => simp [stepLine, h1, h2, h3]
        | cons a as =>
          simp only [stepLine, h1, h2, h3]
          rw [map_proj_modifyLast (addDepends deps) (fun t => rfl) (a :: as)]
          simp
      | none => cases acc <;> simp [stepLine, h1, h2, h3]

lemma foldl_stepLine_proj (lines : List String) :
    ∀ acc : List Task,
      (List.foldl stepLine acc lines).map (fun t => (t.id, t.title, t.completed))
        = acc.map (fun t => (t.id, t.title, t.completed)) ++
          (lines.filterMap matchMainTask).map (fun m => (m.2.1, m.2.2, m.1 == 'x')) := by
  induction lines with
  | nil => simp
  | cons l ls ih =>
    intro acc
    rw [List.foldl_cons, ih, stepLine_proj]
    cases h : matchMainTask l <;> simp [List.filterMap_cons, h]

lemma length_filterMap_eq_length_filter {α β : Type} (f : α → Option β) (l : List α) :
    (l.filterMap f).length = (l.filter (fun x => (f x).isSome)).length := by
  induction l with
  | nil => rfl
  | cons a l ih => cases h : f a <;> simp [List.filterMap_cons, List.filter_cons, h, ih]

/-- C7: for every document (list of lines), `parse` returns exactly one
top-level task per line matching the main-task pattern, in document order;
the i-th task's id, title and completion flag come from the i-th matching
line. -/
theorem parse_one_task_per_matching_line (lines : List String) :
    (parse_tasks_lines lines).length
        = (lines.filter (fun l => (matchMainTask l).isSome)).length ∧
    (parse_tasks_lines lines).map (fun t => (t.id, t.title, t.completed))
        = (lines.filterMap matchMainTask).map (fun m => (m.2.1, m.2.2, m.1 == 'x')) := by
  have h := foldl_stepLine_proj lines []
  simp only [List.map_nil, List.nil_append] at h
  refine ⟨?_, h⟩
  have hlen := congrArg List.length h
  simpa [parse_tasks_lines, length_filterMap_eq_length_filter] using hlen

end ParseTasks

namespace ParseTasks

/-! ### Properties of the dependency graph construction -/

lemma mem_addId {cs : List String} {i x : String} :
    x ∈ addId cs i ↔ x ∈ cs ∨ x = i := by
  by_cases h : i ∈ cs
  · simp only [addId, if_pos h]
    constructor
    · exact Or.inl
    · rintro (hx | rfl)
      · exact hx
      · exact h
  · simp [addId, h]

lemma nodup_addId {cs : List String} (i : String) (h : cs.Nodup) :
    (addId cs i).Nodup := by
  by_cases hm : i ∈ cs
  · rw [addId, if_pos hm]
    exact h
  · rw [addId, if_neg hm]
    refine h.append (List.nodup_singleton i) ?_
    intro a ha hai
    rw [List.mem_singleton] at hai
    subst hai
    exact hm ha

lemma mem_foldl_addId (ds : List String) :
    ∀ (l : List String) (x : String), x ∈ ds.foldl addId l ↔ x ∈ l ∨ x ∈ ds := by
  induction ds with
  | nil => simp
  | cons d ds ih =>
    intro l x
    rw [List.foldl_cons, ih, mem_addId]
    simp only [List.mem_cons]
    tauto

lemma nodup_foldl_addId (ds : List String) :
    ∀ l : List String, l.Nodup → (ds.foldl addId l).Nodup := by
  induction ds with
  | nil => exact fun l h => h
  | cons d ds ih => exact fun l h => ih _ (nodup_addId d h)

lemma any_key_iff (g : Graph) (k : String) :
    (g.any (fun p => p.1 == k)) = true ↔ k ∈ g.map Prod.fst := by
  simp only [List.any_eq_true, beq_iff_eq, List.mem_map]

lemma lookupDeps_cons (a : String) (ds : List String) (g : Graph) (k : String) :
    lookupDeps ((a, ds) :: g) k = if a = k then ds else lookupDeps g k := by
  by_cases h : a = k <;> simp [lookupDeps, List.find?_cons, h]

lemma lookupDeps_not_mem {g : Graph} {k : String}
    (h : k ∉ g.map Prod.fst) : lookupDeps g k = [] := by
  induction g with
  | nil => rfl
  | cons p g ih =>
    obtain ⟨a, ds⟩ := p
    simp only [List.map_cons, List.mem_cons] at h
    push_neg at h
    rw [lookupDeps_cons, if_neg (Ne.symm h.1)]
    exact ih h.2

lemma gKeys_addKey (g : Graph) (k : String) :
    (addKey g k).map Prod.fst =
      if k ∈ g.map Prod.fst then g.map Prod.fst else g.map Prod.fst ++ [k] := by
  by_cases h : k ∈ g.map Prod.fst
  · simp [addKey, (any_key_iff g k).2 h, h]
  · have hany : ¬ (g.any (fun p => p.1 == k)) = true := fun hc => h ((any_key_iff g k).1 hc)
    simp [addKey, hany, h]

lemma lookupDeps_append_new (g : Graph) (k j : String)
    (hk : k ∉ g.map Prod.fst) : lookupDeps (g ++ [(k, [])]) j = lookupDeps g j := by
  induction g with
  | nil =>
    rw [List.nil_append, lookupDeps_cons]
    split <;> rfl
  | cons p g ih =>
    obtain ⟨a, ds⟩ := p
    simp only [List.map_cons, List.mem_cons] at hk
    push_neg at hk
    rw [List.cons_append, lookupDeps_cons, lookupDeps_cons]
    by_cases hp : a = j
    · simp [hp]
    · rw [if_neg hp, if_neg hp]
      exact ih hk.2

lemma lookupDeps_addKey (g : Graph) (k j : String) :
    lookupDeps (addKey g k) j = lookupDeps g j := by
  by_cases h : k ∈ g.map Prod.fst
  · rw [addKey, if_pos ((any_key_iff g k).2 h)]
  · rw [addKey, if_neg (fun hc => h ((any_key_iff g k).1 hc))]
    exact lookupDeps_append_new g k j h

lemma addDep_cons (a : String) (ds : List String) (g : Graph) (k d : String) :
    addDep ((a, ds) :: g) k d =
      (if a = k then (a, addId ds d) else (a, ds)) :: addDep g k d := by
  by_cases hp : a = k <;> simp [addDep, hp]

lemma gKeys_addDep (g : Graph) (k d : String) :
    (addDep g k d).map Prod.fst = g.map Prod.fst := by
  induction g with
  | nil => rfl
  | cons p g ih =>
    obtain ⟨a, ds⟩ := p
    rw [addDep_cons]
    by_cases hp : a = k
    · rw [if_pos hp]
      simp only [List.map_cons]
      rw [ih]
    · rw [if_neg hp]
      simp only [List.map_cons]
      rw [ih]

lemma lookupDeps_addDep_ne {j k : String} (g : Graph) (d : String) (h : j ≠ k) :
    lookupDeps (addDep g k d) j = lookupDeps g j := by
  induction g with
  | nil => rfl
  | cons p g ih =>
    obtain ⟨a, ds⟩ := p
    rw [addDep_cons]
    by_cases hp : a = k
    · rw [if_pos hp, lookupDeps_cons, lookupDeps_cons]
      have haj : ¬ a = j := fun hc => h (hc.symm.trans hp)
      rw [if_neg haj, if_neg haj]
      exact ih
    · rw [if_neg hp, lookupDeps_cons, lookupDeps_cons]
      by_cases haj : a = j
      · rw [if_pos haj, if_pos haj]
      · rw [if_neg haj, if_neg haj]
        exact ih

lemma lookupDeps_addDep_self (g : Graph) (k d : String) :
    lookupDeps (addDep g k d) k =
      if k ∈ g.map Prod.fst then addId (lookupDeps g k) d else lookupDeps g k := by
  induction g with
  | nil => rfl
  | cons p g ih =>
    obtain ⟨a, ds⟩ := p
    rw [addDep_cons]
    by_cases hp : a = k
    · rw [if_pos hp, lookupDeps_cons, if_pos hp, lookupDeps_cons, if_pos hp]
      have : k ∈ (a, ds).1 :: g.map Prod.fst := by
        rw [List.mem_cons]
        exact Or.inl hp.symm
      simp only [List.map_cons]
      rw [if_pos this]
    · rw [if_neg hp, lookupDeps_cons, if_neg hp, lookupDeps_cons, if_neg hp]
      simp only [List.map_cons]
      have hmem : (k ∈ a :: g.map Prod.fst) ↔ k ∈ g.map Prod.fst := by
        rw [List.mem_cons]
        exact or_iff_right (fun hc => hp hc.symm)
      rw [ih]
      by_cases hm : k ∈ g.map Prod.fst
      · rw [if_pos hm, if_pos (hmem.2 hm)]
      · rw [if_neg hm, if_neg (fun hc => hm (hmem.1 hc))]

end ParseTasks

namespace ParseTasks

lemma gKeys_depsFold (k : String) (ds : List String) :
    ∀ g : Graph, ((ds.foldl (fun g2 d => addDep g2 k d) g).map Prod.fst) = g.map Prod.fst := by
  induction ds with
  | nil => exact fun g => rfl
  | cons d ds ih =>
    intro g
    rw [List.foldl_cons, ih, gKeys_addDep]

lemma lookupDeps_depsFold_ne {j k : String} (ds : List String) (h : j ≠ k) :
    ∀ g : Graph, lookupDeps (ds.foldl (fun g2 d => addDep g2 k d) g) j = lookupDeps g j := by
  induction ds with
  | nil => exact fun g => rfl
  | cons d ds ih =>
    intro g
    rw [List.foldl_cons, ih, lookupDeps_addDep_ne _ _ h]

lemma lookupDeps_depsFold_self (k : String) (ds : List String) :
    ∀ g : Graph, k ∈ g.map Prod.fst →
      lookupDeps (ds.foldl (fun g2 d => addDep g2 k d) g) k = ds.foldl addId (lookupDeps g k) := by
  induction ds with
  | nil => exact fun g _ => rfl
  | cons d ds ih =>
    intro g hk
    rw [List.foldl_cons, List.foldl_cons,
      ih (addDep g k d) (by rw [gKeys_addDep]; exact hk),
      lookupDeps_addDep_self, if_pos hk]

lemma gKeys_buildStep (g : Graph) (t : Task) :
    (buildStep g t).map Prod.fst =
      if t.id ∈ g.map Prod.fst then g.map Prod.fst else g.map Prod.fst ++ [t.id] := by
  rw [buildStep, gKeys_depsFold, gKeys_addKey]

lemma mem_gKeys_buildStep (g : Graph) (t : Task) (k : String) :
    k ∈ (buildStep g t).map Prod.fst ↔ k ∈ g.map Prod.fst ∨ k = t.id := by
  rw [gKeys_buildStep]
  by_cases h : t.id ∈ g.map Prod.fst
  · rw [if_pos h]
    exact ⟨Or.inl, fun hc => hc.elim id (fun he => he ▸ h)⟩
  · rw [if_neg h]
    simp [List.mem_append]

lemma lookupDeps_buildStep_ne {g : Graph} {t : Task} {j : String} (h : j ≠ t.id) :
    lookupDeps (buildStep g t) j = lookupDeps g j := by
  rw [buildStep, lookupDeps_depsFold_ne _ h, lookupDeps_addKey]

lemma lookupDeps_buildStep_self (g : Graph) (t : Task) :
    lookupDeps (buildStep g t) t.id = t.depends_on.foldl addId (lookupDeps g t.id) := by
  rw [buildStep, lookupDeps_depsFold_self]
  · rw [lookupDeps_addKey]
  · rw [gKeys_addKey]
    by_cases h : t.id ∈ g.map Prod.fst
    · rw [if_pos h]
      exact h
    · rw [if_neg h]
      simp

lemma nodup_gKeys_buildStep {g : Graph} (t : Task)
    (h : (g.map Prod.fst).Nodup) : ((buildStep g t).map Prod.fst).Nodup := by
  rw [gKeys_buildStep]
  by_cases hm : t.id ∈ g.map Prod.fst
  · rw [if_pos hm]
    exact h
  · rw [if_neg hm]
    refine h.append (List.nodup_singleton _) ?_
    intro a ha hai
    rw [List.mem_singleton] at hai
    subst hai
    exact hm ha

lemma build_foldl_spec (ts : List Task) :
    ∀ g : Graph, (g.map Prod.fst).Nodup → (∀ k, (lookupDeps g k).Nodup) →
      (((ts.foldl buildStep g).map Prod.fst).Nodup
      ∧ (∀ k, k ∈ (ts.foldl buildStep g).map Prod.fst ↔
          k ∈ g.map Prod.fst ∨ ∃ t ∈ ts, t.id = k)
      ∧ (∀ k d, d ∈ lookupDeps (ts.foldl buildStep g) k ↔
          d ∈ lookupDeps g k ∨ ∃ t ∈ ts, t.id = k ∧ d ∈ t.depends_on)
      ∧ (∀ k, (lookupDeps (ts.foldl buildStep g) k).Nodup)) := by
  induction ts with
  | nil =>
    intro g h1 h2
    refine ⟨h1, fun k => ?_, fun k d => ?_, h2⟩ <;> simp
  | cons t ts ih =>
    intro g h1 h2
    have hstep1 : ((buildStep g t).map Prod.fst).Nodup := nodup_gKeys_buildStep t h1
    have hstep2 : ∀ k, (lookupDeps (buildStep g t) k).Nodup := by
      intro k
      by_cases hk : k = t.id
      · subst hk
        rw [lookupDeps_buildStep_self]
        exact nodup_foldl_addId _ _ (h2 t.id)
      · rw [lookupDeps_buildStep_ne hk]
        exact h2 k
    obtain ⟨ih1, ih2, ih3, ih4⟩ := ih (buildStep g t) hstep1 hstep2
    rw [List.foldl_cons]
    refine ⟨ih1, fun k => ?_, fun k d => ?_, ih4⟩
    · rw [ih2 k, mem_gKeys_buildStep]
      constructor
      · rintro ((hg | hk) | ⟨u, hu, huk⟩)
        · exact Or.inl hg
        · exact Or.inr ⟨t, List.mem_cons_self t ts, hk.symm⟩
        · exact Or.inr ⟨u, List.mem_cons_of_mem t hu, huk⟩
      · rintro (hg | ⟨u, hu, huk⟩)
        · exact Or.inl (Or.inl hg)
        · rcases List.mem_cons.1 hu with rfl | hu2
          · exact Or.inl (Or.inr huk.symm)
          · exact Or.inr ⟨u, hu2, huk⟩
    · rw [ih3 k d]
      by_cases hk : k = t.id
      · subst hk
        rw [lookupDeps_buildStep_self, mem_foldl_addId]
        constructor
        · rintro ((hg | hd) | ⟨u, hu, huk, hud⟩)
          · exact Or.inl hg
          · exact Or.inr ⟨t, List.mem_cons_self t ts, rfl, hd⟩
          · exact Or.inr ⟨u, List.mem_cons_of_mem t hu, huk, hud⟩
        · rintro (hg | ⟨u, hu, huk, hud⟩)
          · exact Or.inl (Or.inl hg)
          · rcases List.mem_cons.1 hu with rfl | hu2
            · exact Or.inl (Or.inr hud)
            · exact Or.inr ⟨u, hu2, huk, hud⟩
      · rw [lookupDeps_buildStep_ne hk]
        constructor
        · rintro (hg | ⟨u, hu, huk, hud⟩)
          · exact Or.inl hg
          · exact Or.inr ⟨u, List.mem_cons_of_mem t hu, huk, hud⟩
        · rintro (hg | ⟨u, hu, huk, hud⟩)
          · exact Or.inl hg
          · rcases List.mem_cons.1 hu with rfl | hu2
            · exact absurd huk.symm hk
            · exact Or.inr ⟨u, hu2, huk, hud⟩

lemma build_keys_nodup (tasks : List Task) :
    ((build_dependency_graph tasks).map Prod.fst).Nodup :=
  (build_foldl_spec tasks [] (List.nodup_nil) (fun _ => List.nodup_nil)).1

lemma mem_build_keys (tasks : List Task) (k : String) :
    k ∈ (build_dependency_graph tasks).map Prod.fst ↔ ∃ t ∈ tasks, t.id = k := by
  have h := (build_foldl_spec tasks [] (List.nodup_nil) (fun _ => List.nodup_nil)).2.1 k
  simpa [build_dependency_graph] using h

lemma mem_build_deps (tasks : List Task) (k d : String) :
    d ∈ lookupDeps (build_dependency_graph tasks) k ↔
      ∃ t ∈ tasks, t.id = k ∧ d ∈ t.depends_on := by
  have h := (build_foldl_spec tasks [] (List.nodup_nil) (fun _ => List.nodup_nil)).2.2.1 k d
  simpa [build_dependency_graph, lookupDeps] using h

lemma build_deps_nodup (tasks : List Task) (k : String) :
    (lookupDeps (build_dependency_graph tasks) k).Nodup :=
  (build_foldl_spec tasks [] (List.nodup_nil) (fun _ => List.nodup_nil)).2.2.2 k

end ParseTasks

namespace ParseTasks

/-! ### The lexicographic queue order -/

lemma char_toNat_inj {a b : Char} (h : a.toNat = b.toNat) : a = b := by
  have := congrArg Char.ofNat h
  rwa [Char.ofNat_toNat, Char.ofNat_toNat] at this

lemma charListLe_cons (a b : Char) (as bs : List Char) :
    charListLe (a :: as) (b :: bs) = true ↔
      (a.toNat < b.toNat ∨ (a.toNat = b.toNat ∧ charListLe as bs = true)) := by
  by_cases h1 : a.toNat < b.toNat
  · simp [charListLe, h1]
  · by_cases h2 : b.toNat < a.toNat
    · simp only [charListLe, if_neg h1, if_pos h2]
      constructor
      · intro h
        simp at h
      · rintro (h | ⟨heq, _⟩)
        · exact absurd h h1
        · exact absurd h2 (by omega)
    · simp only [charListLe, if_neg h1, if_neg h2]
      constructor
      · intro h
        exact Or.inr ⟨by omega, h⟩
      · rintro (h | ⟨_, h⟩)
        · exact absurd h h1
        · exact h

lemma charListLt_cons (a b : Char) (as bs : List Char) :
    charListLt (a :: as) (b :: bs) = true ↔
      (a.toNat < b.toNat ∨ (a.toNat = b.toNat ∧ charListLt as bs = true)) := by
  by_cases h1 : a.toNat < b.toNat
  · simp [charListLt, h1]
  · by_cases h2 : b.toNat < a.toNat
    · simp only [charListLt, if_neg h1, if_pos h2]
      constructor
      · intro h
        simp at h
      · rintro (h | ⟨heq, _⟩)
        · exact absurd h h1
        · exact absurd h2 (by omega)
    · simp only [charListLt, if_neg h1, if_neg h2]
      constructor
      · intro h
        exact Or.inr ⟨by omega, h⟩
      · rintro (h | ⟨_, h⟩)
        · exact absurd h h1
        · exact h

lemma charListLe_total : ∀ as bs : List Char,
    charListLe as bs = true ∨ charListLe bs as = true := by
  intro as
  induction as with
  | nil => intro bs; left; rfl
  | cons a as ih =>
    intro bs
    cases bs with
    | nil => right; rfl
    | cons b bs =>
      rw [charListLe_cons, charListLe_cons]
      rcases Nat.lt_trichotomy a.toNat b.toNat with h | h | h
      · exact Or.inl (Or.inl h)
      · rcases ih bs with hle | hle
        · exact Or.inl (Or.inr ⟨h, hle⟩)
        · exact Or.inr (Or.inr ⟨h.symm, hle⟩)
      · exact Or.inr (Or.inl h)

lemma charListLe_trans :
    ∀ {as bs cs : List Char}, charListLe as bs = true → charListLe bs cs = true →
      charListLe as cs = true := by
  intro as
  induction as with
  | nil => intro bs cs _ _; rfl
  | cons a as ih =>
    intro bs cs hab hbc
    cases bs with
    | nil => simp [charListLe] at hab
    | cons b bs =>
      cases cs with
      | nil => simp [charListLe] at hbc
      | cons c cs =>
        rw [charListLe_cons] at hab hbc ⊢
        rcases hab with h1 | ⟨h1, hle1⟩
        · rcases hbc with h2 | ⟨h2, _⟩
          · exact Or.inl (by omega)
          · exact Or.inl (by omega)
        · rcases hbc with h2 | ⟨h2, hle2⟩
          · exact Or.inl (by omega)
          · exact Or.inr ⟨by omega, ih hle1 hle2⟩

lemma charListLe_antisymm :
    ∀ {as bs : List Char}, charListLe as bs = true → charListLe bs as = true → as = bs := by
  intro as
  induction as with
  | nil =>
    intro bs _ hba
    cases bs with
    | nil => rfl
    | cons b bs => simp [charListLe] at hba
  | cons a as ih =>
    intro bs hab hba
    cases bs with
    | nil => simp [charListLe] at hab
    | cons b bs =>
      rw [charListLe_cons] at hab hba
      rcases hab with h1 | ⟨h1, hle1⟩
      · rcases hba with h2 | ⟨h2, _⟩ <;> omega
      · rcases hba with h2 | ⟨h2, hle2⟩
        · omega
        · rw [char_toNat_inj h1, ih hle1 hle2]

lemma charListLe_of_lt {as bs : List Char} (h : charListLt as bs = true) :
    charListLe as bs = true := by
  induction as generalizing bs with
  | nil => rfl
  | cons a as ih =>
    cases bs with
    | nil => simp [charListLt] at h
    | cons b bs =>
      rw [charListLt_cons] at h
      rw [charListLe_cons]
      rcases h with h | ⟨h, hlt⟩
      · exact Or.inl h
      · exact Or.inr ⟨h, ih hlt⟩

lemma charListLt_of_le_of_ne {as bs : List Char}
    (h : charListLe as bs = true) (hne : as ≠ bs) : charListLt as bs = true := by
  induction as generalizing bs with
  | nil =>
    cases bs with
    | nil => exact absurd rfl hne
    | cons b bs => rfl
  | cons a as ih =>
    cases bs with
    | nil => simp [charListLe] at h
    | cons b bs =>
      rw [charListLe_cons] at h
      rw [charListLt_cons]
      rcases h with h | ⟨h, hle⟩
      · exact Or.inl h
      · have hab : a = b := char_toNat_inj h
        subst hab
        have : as ≠ bs := fun hc => hne (by rw [hc])
        exact Or.inr ⟨rfl, ih hle this⟩

instance : IsTotal String (fun a b => strLe a b = true) :=
  ⟨fun a b => charListLe_total a.data b.data⟩

instance : IsTrans String (fun a b => strLe a b = true) :=
  ⟨fun _ _ _ hab hbc => charListLe_trans hab hbc⟩

lemma strLe_antisymm {a b : String} (hab : strLe a b = true) (hba : strLe b a = true) :
    a = b := by
  cases a
  cases b
  exact congrArg String.mk (charListLe_antisymm hab hba)

lemma strLt_of_le_of_ne {a b : String} (hab : strLe a b = true) (hne : a ≠ b) :
    strLt a b = true := by
  cases a
  cases b
  exact charListLt_of_le_of_ne hab (fun hc => hne (congrArg String.mk hc))

end ParseTasks

namespace ParseTasks

/-! ### The decrement pass of Kahn's algorithm -/

lemma decStep_eq (current : String) (rids : List String) (ind : String → Int)
    (acc : List String) (a : String) (ds : List String) :
    decStep current rids (ind, acc) (a, ds) =
      if current ∈ ds then
        ((fun k => if k = a then ind a - 1 else ind k),
          if ind a - 1 = 0 ∧ a ∉ rids then acc ++ [a] else acc)
      else (ind, acc) := by
  by_cases h : current ∈ ds
  · simp only [decStep, if_pos h]
    by_cases h2 : ind a - 1 = 0 ∧ a ∉ rids <;> simp [h2]
  · simp [decStep, h]

/-- The predicate deciding whether a key enters the ready queue during the
decrement pass for `current`, phrased against the whole graph. -/
def newlyReady (g : Graph) (current : String) (ind : String → Int)
    (rids : List String) (k : String) : Bool :=
  decide (current ∈ lookupDeps g k) && decide (ind k - 1 = 0) && decide (k ∉ rids)

lemma decrementPass_fold (current : String) (rids : List String) :
    ∀ (g : Graph), (g.map Prod.fst).Nodup → ∀ (ind : String → Int) (acc : List String),
      (∀ k, (g.foldl (decStep current rids) (ind, acc)).1 k
          = if current ∈ lookupDeps g k then ind k - 1 else ind k)
      ∧ (g.foldl (decStep current rids) (ind, acc)).2
          = acc ++ (g.map Prod.fst).filter (newlyReady g current ind rids) := by
  intro g
  induction g with
  | nil =>
    intro _ ind acc
    constructor
    · intro k
      rw [if_neg (by simp [lookupDeps])]
      rfl
    · simp
  | cons p g ih =>
    obtain ⟨a, ds⟩ := p
    intro hnd ind acc
    have hnd2 : (g.map Prod.fst).Nodup := (List.nodup_cons.1 (by simpa using hnd)).2
    have hna : a ∉ g.map Prod.fst := (List.nodup_cons.1 (by simpa using hnd)).1
    have hga : lookupDeps g a = [] := lookupDeps_not_mem hna
    rw [List.foldl_cons, decStep_eq]
    by_cases hc : current ∈ ds
    · rw [if_pos hc]
      obtain ⟨ihf, ihs⟩ := ih hnd2 (fun k => if k = a then ind a - 1 else ind k)
        (if ind a - 1 = 0 ∧ a ∉ rids then acc ++ [a] else acc)
      constructor
      · intro k
        rw [ihf k, lookupDeps_cons]
        by_cases hk : a = k
        · subst hk
          rw [hga]
          simp [hc]
        · rw [if_neg hk]
          have h1 : (if k = a then ind a - 1 else ind k) = ind k :=
            if_neg (fun hc2 => hk hc2.symm)
          by_cases hcur : current ∈ lookupDeps g k <;> simp [hcur, h1]
      · rw [ihs]
        have hfilter :
            (g.map Prod.fst).filter
                (newlyReady g current (fun k => if k = a then ind a - 1 else ind k) rids)
              = (g.map Prod.fst).filter (newlyReady (⟨a, ds⟩ :: g) current ind rids) := by
          apply List.filter_congr
          intro k hk
          have hka : ¬ k = a := fun hc2 => hna (hc2 ▸ hk)
          rw [newlyReady, newlyReady, if_neg hka, lookupDeps_cons,
            if_neg (fun hc2 : a = k => hka hc2.symm)]
        rw [hfilter]
        rw [List.map_cons, List.filter_cons]
        have hda : lookupDeps (⟨a, ds⟩ :: g) a = ds := by
          rw [lookupDeps_cons, if_pos rfl]
        by_cases hcond : ind a - 1 = 0 ∧ a ∉ rids
        · rw [if_pos hcond]
          have : newlyReady (⟨a, ds⟩ :: g) current ind rids a = true := by
            rw [newlyReady, hda]
            simp [hc, hcond.1, hcond.2]
          rw [if_pos this]
          simp
        · rw [if_neg hcond]
          have : ¬ newlyReady (⟨a, ds⟩ :: g) current ind rids a = true := by
            rw [newlyReady, hda]
            simp only [Bool.and_eq_true, decide_eq_true_eq]
            rintro ⟨⟨-, h1⟩, h2⟩
            exact hcond ⟨h1, h2⟩
          rw [if_neg this]
    · rw [if_neg hc]
      obtain ⟨ihf, ihs⟩ := ih hnd2 ind acc
      constructor
      · intro k
        rw [ihf k, lookupDeps_cons]
        by_cases hk : a = k
        · subst hk
          rw [hga]
          simp [hc]
        · rw [if_neg hk]
      · rw [ihs]
        congr 1
        rw [List.map_cons, List.filter_cons]
        have hda : lookupDeps (⟨a, ds⟩ :: g) a = ds := by
          rw [lookupDeps_cons, if_pos rfl]
        have hpa : ¬ newlyReady (⟨a, ds⟩ :: g) current ind rids a = true := by
          rw [newlyReady, hda]
          simp [hc]
        rw [if_neg hpa]
        apply List.filter_congr
        intro k hk
        have hka : ¬ a = k := fun hc2 => hna (hc2 ▸ hk)
        rw [newlyReady, newlyReady, lookupDeps_cons, if_neg hka]

lemma decrementPass_spec (g : Graph) (current : String) (indeg : String → Int)
    (rids : List String) (hnd : (g.map Prod.fst).Nodup) :
    (∀ k, (decrementPass g current indeg rids).1 k
        = if current ∈ lookupDeps g k then indeg k - 1 else indeg k)
    ∧ (decrementPass g current indeg rids).2
        = (g.map Prod.fst).filter (newlyReady g current indeg rids) := by
  have h := decrementPass_fold current rids g hnd indeg []
  rw [decrementPass]
  exact ⟨h.1, by rw [h.2, List.nil_append]⟩

end ParseTasks

namespace ParseTasks

/-! ### The Kahn loop invariant -/

/-- Invariant of the `while queue` loop of `topological_sort`, over the
graph of `tasks`.  `result.map Task.id` is the list of already-popped keys
in pop order. -/
structure KInv (tasks : List Task) (queue : List String) (indeg : String → Int)
    (result : List Task) : Prop where
  nodup : (result.map Task.id ++ queue).Nodup
  queue_keys : ∀ x ∈ queue, x ∈ (build_dependency_graph tasks).map Prod.fst
  res_keys : ∀ t ∈ result, t.id ∈ (build_dependency_graph tasks).map Prod.fst
  res_map : ∀ t ∈ result, taskMapGet tasks t.id = some t
  indeg_eq : ∀ k, indeg k =
    ((lookupDeps (build_dependency_graph tasks) k).length : Int)
      - (((result.map Task.id).filter
          (fun d => decide (d ∈ lookupDeps (build_dependency_graph tasks) k))).length : Int)
  queue_char : ∀ k ∈ (build_dependency_graph tasks).map Prod.fst,
    (k ∈ queue ↔ indeg k = 0 ∧ k ∉ result.map Task.id)
  order : ∀ i t, result.get? i = some t →
    ∀ d ∈ lookupDeps (build_dependency_graph tasks) t.id,
      d ∈ (result.take i).map Task.id

lemma length_le_of_nodup_subset {l keys : List String}
    (hnd : l.Nodup) (hsub : ∀ x ∈ l, x ∈ keys) : l.length ≤ keys.length := by
  calc l.length = l.toFinset.card := (List.toFinset_card_of_nodup hnd).symm
    _ ≤ keys.toFinset.card := Finset.card_le_card (fun x hx =>
        List.mem_toFinset.2 (hsub x (List.mem_toFinset.1 hx)))
    _ ≤ keys.length := keys.toFinset_card_le

lemma subset_of_filter_length_eq {popped deps : List String}
    (hp : popped.Nodup) (hd : deps.Nodup)
    (hlen : (popped.filter (fun d => decide (d ∈ deps))).length = deps.length) :
    ∀ d ∈ deps, d ∈ popped := by
  intro d hdmem
  set S := popped.filter (fun d => decide (d ∈ deps)) with hS
  have hSnd : S.Nodup := hp.filter _
  have hSsub : ∀ x ∈ S, x ∈ deps := by
    intro x hx
    have := List.of_mem_filter hx
    simpa using this
  have hcard : S.toFinset = deps.toFinset := by
    apply Finset.eq_of_subset_of_card_le
    · intro x hx
      exact List.mem_toFinset.2 (hSsub x (List.mem_toFinset.1 hx))
    · rw [List.toFinset_card_of_nodup hd, List.toFinset_card_of_nodup hSnd, hlen]
  have : d ∈ S := by
    rw [← List.mem_toFinset, hcard, List.mem_toFinset]
    exact hdmem
  exact List.mem_of_mem_filter this

lemma deps_subset_of_indeg_zero {tasks : List Task} {queue : List String}
    {indeg : String → Int} {result : List Task}
    (inv : KInv tasks queue indeg result) {k : String}
    (h0 : indeg k = 0) :
    ∀ d ∈ lookupDeps (build_dependency_graph tasks) k, d ∈ result.map Task.id := by
  have heq := inv.indeg_eq k
  rw [h0] at heq
  have hplen : ((result.map Task.id).filter
      (fun d => decide (d ∈ lookupDeps (build_dependency_graph tasks) k))).length
        = (lookupDeps (build_dependency_graph tasks) k).length := by omega
  exact subset_of_filter_length_eq (List.nodup_append.1 inv.nodup).1
    (build_deps_nodup tasks k) hplen

lemma taskMapGet_isSome_of_key {tasks : List Task} {k : String}
    (hk : k ∈ (build_dependency_graph tasks).map Prod.fst) :
    ∃ t, taskMapGet tasks k = some t ∧ t.id = k := by
  obtain ⟨u, hu, huk⟩ := (mem_build_keys tasks k).1 hk
  cases hfind : taskMapGet tasks k with
  | none => exact absurd huk (taskMapGet_none.1 hfind u hu)
  | some v => exact ⟨v, rfl, (taskMapGet_some hfind).2⟩

end ParseTasks

namespace ParseTasks

lemma kahn_step (tasks : List Task) (queue : List String) (indeg : String → Int)
    (result : List Task) (inv : KInv tasks queue indeg result)
    (current : String) (rest : List String)
    (hsort : List.insertionSort (fun a b => strLe a b = true) queue = current :: rest) :
    ∃ tcur, taskMapGet tasks current = some tcur ∧
      KInv tasks
        (rest ++ (decrementPass (build_dependency_graph tasks) current indeg
            ((result ++ [tcur]).map Task.id)).2)
        (decrementPass (build_dependency_graph tasks) current indeg
            ((result ++ [tcur]).map Task.id)).1
        (result ++ [tcur]) := by
  have hperm : (current :: rest).Perm queue := hsort ▸ List.perm_insertionSort _ queue
  have hqnodup : queue.Nodup := (List.nodup_append.1 inv.nodup).2.1
  have hcr_nodup : (current :: rest).Nodup := hperm.nodup_iff.2 hqnodup
  have hcq : current ∈ queue := hperm.mem_iff.1 (List.mem_cons_self _ _)
  have hrest_sub : ∀ x ∈ rest, x ∈ queue :=
    fun x hx => hperm.mem_iff.1 (List.mem_cons_of_mem _ hx)
  have hmemq : ∀ x, x ∈ queue ↔ x = current ∨ x ∈ rest := by
    intro x
    rw [← hperm.mem_iff, List.mem_cons]
  have hck : current ∈ (build_dependency_graph tasks).map Prod.fst :=
    inv.queue_keys current hcq
  obtain ⟨hind0, hcnp⟩ := (inv.queue_char current hck).1 hcq
  obtain ⟨tcur, htm, htid⟩ := taskMapGet_isSome_of_key hck
  have hdeps_sub := deps_subset_of_indeg_zero inv hind0
  have hdisj : (result.map Task.id).Disjoint queue := (List.nodup_append.1 inv.nodup).2.2
  have hpop' : (result ++ [tcur]).map Task.id = result.map Task.id ++ [current] := by
    rw [List.map_append]
    simp [htid]
  obtain ⟨hdf, hds⟩ := decrementPass_spec (build_dependency_graph tasks) current indeg
    ((result ++ [tcur]).map Task.id) (build_keys_nodup tasks)
  set newIds := (decrementPass (build_dependency_graph tasks) current indeg
      ((result ++ [tcur]).map Task.id)).2 with hnewdef
  have hmem_pop' : ∀ x, x ∈ (result ++ [tcur]).map Task.id ↔
      x ∈ result.map Task.id ∨ x = current := by
    intro x
    rw [hpop', List.mem_append, List.mem_singleton]
  have hmem_new : ∀ k, k ∈ newIds ↔
      (k ∈ (build_dependency_graph tasks).map Prod.fst ∧
        current ∈ lookupDeps (build_dependency_graph tasks) k ∧
        indeg k - 1 = 0 ∧ k ∉ (result ++ [tcur]).map Task.id) := by
    intro k
    rw [hds, List.mem_filter, newlyReady]
    simp [and_assoc]
  have hq_no_dep : ∀ k ∈ queue, current ∉ lookupDeps (build_dependency_graph tasks) k := by
    intro k hkq hcd
    have hkk := inv.queue_keys k hkq
    have hz := ((inv.queue_char k hkk).1 hkq).1
    exact hcnp (deps_subset_of_indeg_zero inv hz current hcd)
  refine ⟨tcur, htm, ?_, ?_, ?_, ?_, ?_, ?_, ?_⟩
  · -- nodup
    rw [← hnewdef, hpop']
    have hrest_nodup : rest.Nodup := (List.nodup_cons.1 hcr_nodup).2
    have hcnr : current ∉ rest := (List.nodup_cons.1 hcr_nodup).1
    have hnew_nodup : newIds.Nodup := by
      rw [hds]
      exact (build_keys_nodup tasks).filter _
    rw [List.nodup_append]
    refine ⟨?_, ?_, ?_⟩
    · rw [List.nodup_append]
      refine ⟨(List.nodup_append.1 inv.nodup).1, List.nodup_singleton _, ?_⟩
      intro x hx hx2
      rw [List.mem_singleton] at hx2
      subst hx2
      exact hcnp hx
    · rw [List.nodup_append]
      refine ⟨hrest_nodup, hnew_nodup, ?_⟩
      intro x hx hx2
      exact hq_no_dep x (hrest_sub x hx) ((hmem_new x).1 hx2).2.1
    · intro x hx hx2
      rw [List.mem_append, List.mem_singleton] at hx
      rw [List.mem_append] at hx2
      rcases hx2 with hx2 | hx2
      · rcases hx with hx | rfl
        · exact hdisj hx (hrest_sub x hx2)
        · exact (List.nodup_cons.1 hcr_nodup).1 hx2
      · have := ((hmem_new x).1 hx2).2.2.2
        rw [hmem_pop'] at this
        push_neg at this
        rcases hx with hx | rfl
        · exact this.1 hx
        · exact this.2 rfl
  · -- queue_keys
    intro x hx
    rw [List.mem_append] at hx
    rcases hx with hx | hx
    · exact inv.queue_keys x (hrest_sub x hx)
    · exact ((hmem_new x).1 hx).1
  · -- res_keys
    intro t ht
    rw [List.mem_append, List.mem_singleton] at ht
    rcases ht with ht | rfl
    · exact inv.res_keys t ht
    · rw [htid]
      exact hck
  · -- res_map
    intro t ht
    rw [List.mem_append, List.mem_singleton] at ht
    rcases ht with ht | rfl
    · exact inv.res_map t ht
    · rw [htid]
      exact htm
  · -- indeg_eq
    intro k
    rw [hdf k, hpop', List.filter_append]
    by_cases hcd : current ∈ lookupDeps (build_dependency_graph tasks) k
    · rw [if_pos hcd, inv.indeg_eq k]
      simp [hcd]
      omega
    · rw [if_neg hcd, inv.indeg_eq k]
      simp [hcd]
  · -- queue_char
    intro k hkk
    rw [List.mem_append, hdf k]
    by_cases hkc : k = current
    · subst hkc
      constructor
      · rintro (hk | hk)
        · exact absurd hk (List.nodup_cons.1 hcr_nodup).1
        · exact absurd ((hmem_new k).1 hk).2.2.2 (fun hc => hc ((hmem_pop' k).2 (Or.inr rfl)))
      · rintro ⟨-, hnp⟩
        exact absurd ((hmem_pop' k).2 (Or.inr rfl)) hnp
    · by_cases hcd : current ∈ lookupDeps (build_dependency_graph tasks) k
      · rw [if_pos hcd]
        have hknotq : k ∉ queue := fun hq => hq_no_dep k hq hcd
        constructor
        · rintro (hk | hk)
          · exact absurd (hrest_sub k hk) hknotq
          · exact ⟨((hmem_new k).1 hk).2.2.1, ((hmem_new k).1 hk).2.2.2⟩
        · rintro ⟨hz, hnp⟩
          exact Or.inr ((hmem_new k).2 ⟨hkk, hcd, hz, hnp⟩)
      · rw [if_neg hcd]
        have hknotnew : k ∉ newIds :=
          fun hk => hcd ((hmem_new k).1 hk).2.1
        have hiff := inv.queue_char k hkk
        constructor
        · rintro (hk | hk)
          · have h := hiff.1 (hrest_sub k hk)
            refine ⟨h.1, fun hc => ?_⟩
            rcases (hmem_pop' k).1 hc with hc | rfl
            · exact h.2 hc
            · exact hkc rfl
          · exact absurd hk hknotnew
        · rintro ⟨hz, hnp⟩
          have hkq : k ∈ queue := hiff.2 ⟨hz, fun hc => hnp ((hmem_pop' k).2 (Or.inl hc))⟩
          rcases (hmemq k).1 hkq with rfl | hk
          · exact absurd rfl hkc
          · exact Or.inl hk
  · -- order
    intro i t hit d hd
    rcases lt_trichotomy i result.length with hlt | heq | hgt
    · rw [List.get?_append hlt] at hit
      rw [List.take_append_of_le_length (le_of_lt hlt)]
      exact inv.order i t hit d hd
    · subst heq
      rw [List.get?_concat_length] at hit
      injection hit with hit
      subst hit
      rw [List.take_left]
      rw [htid] at hd
      exact hdeps_sub d hd
    · exfalso
      have hlen : (result ++ [tcur]).length ≤ i := by
        rw [List.length_append]
        simp
        omega
      rw [List.get?_eq_none.2 hlen] at hit
      exact absurd hit (by simp)

end ParseTasks

namespace ParseTasks

lemma kahnLoop_inv (tasks : List Task) :
    ∀ (fuel : Nat) (queue : List String) (indeg : String → Int) (result : List Task),
      KInv tasks queue indeg result →
      ((build_dependency_graph tasks).map Prod.fst).length ≤ fuel + result.length →
      ∃ indeg2, KInv tasks [] indeg2
        (kahnLoop tasks (build_dependency_graph tasks) fuel queue indeg result) := by
  intro fuel
  induction fuel with
  | zero =>
    intro queue indeg result inv hfuel
    have hsub : ∀ x ∈ result.map Task.id ++ queue,
        x ∈ (build_dependency_graph tasks).map Prod.fst := by
      intro x hx
      rw [List.mem_append] at hx
      rcases hx with hx | hx
      · rw [List.mem_map] at hx
        obtain ⟨t, ht, rfl⟩ := hx
        exact inv.res_keys t ht
      · exact inv.queue_keys x hx
    have hlen := length_le_of_nodup_subset inv.nodup hsub
    rw [List.length_append, List.length_map] at hlen
    have hq : queue = [] := by
      have : queue.length = 0 := by omega
      exact List.length_eq_zero.1 this
    subst hq
    exact ⟨indeg, inv⟩
  | succ fuel ih =>
    intro queue indeg result inv hfuel
    cases hsort : List.insertionSort (fun a b => strLe a b = true) queue with
    | nil =>
      have hperm := List.perm_insertionSort (fun a b => strLe a b = true) queue
      rw [hsort] at hperm
      have hq : queue = [] := hperm.symm.eq_nil
      subst hq
      exact ⟨indeg, inv⟩
    | cons current rest =>
      obtain ⟨tcur, htm, hinv2⟩ := kahn_step tasks queue indeg result inv current rest hsort
      have hstep : kahnLoop tasks (build_dependency_graph tasks) (fuel + 1) queue indeg result
          = kahnLoop tasks (build_dependency_graph tasks) fuel
              (rest ++ (decrementPass (build_dependency_graph tasks) current indeg
                ((result ++ [tcur]).map Task.id)).2)
              (decrementPass (build_dependency_graph tasks) current indeg
                ((result ++ [tcur]).map Task.id)).1
              (result ++ [tcur]) := by
        simp only [kahnLoop, hsort, htm]
      rw [hstep]
      apply ih _ _ _ hinv2
      rw [List.length_append]
      simp only [List.length_singleton]
      omega

lemma kahnInit_inv (tasks : List Task) :
    KInv tasks
      (((build_dependency_graph tasks).map Prod.fst).filter
        (fun k => initInDegree (build_dependency_graph tasks) k == 0))
      (initInDegree (build_dependency_graph tasks)) [] := by
  refine ⟨?_, ?_, ?_, ?_, ?_, ?_, ?_⟩
  · simp only [List.map_nil, List.nil_append]
    exact (build_keys_nodup tasks).filter _
  · exact fun x hx => List.mem_of_mem_filter hx
  · intro t ht
    simp at ht
  · intro t ht
    simp at ht
  · intro k
    simp [initInDegree]
  · intro k hk
    rw [List.mem_filter]
    simp [hk]
  · intro i t hit
    simp at hit

lemma topological_sort_inv (tasks : List Task) :
    ∃ indeg2, KInv tasks [] indeg2 (topological_sort tasks) := by
  have h := kahnLoop_inv tasks (build_dependency_graph tasks).length _ _ _
    (kahnInit_inv tasks) (by simp)
  simpa [topological_sort] using h

/-- C2: in the result of `topological_sort`, whenever a task `t` lists a
dependency id `d` and a task `u` with id `d` is also present in the result,
`u` appears strictly before `t`. -/
theorem topological_order_respects_deps (tasks : List Task) :
    ∀ t ∈ topological_sort tasks, ∀ d ∈ t.depends_on,
      ∀ u ∈ topological_sort tasks, u.id = d →
        ∃ i j, i < j ∧ (topological_sort tasks).get? i = some u ∧
          (topological_sort tasks).get? j = some t := by
  obtain ⟨indeg2, inv⟩ := topological_sort_inv tasks
  intro t ht d hd u hu hud
  obtain ⟨j, hj⟩ := List.mem_iff_get?.1 ht
  have htt : taskMapGet tasks t.id = some t := inv.res_map t ht
  have htmem : t ∈ tasks := (taskMapGet_some htt).1
  have hdg : d ∈ lookupDeps (build_dependency_graph tasks) t.id :=
    (mem_build_deps tasks t.id d).2 ⟨t, htmem, rfl, hd⟩
  have hdtake := inv.order j t hj d hdg
  rw [List.mem_map] at hdtake
  obtain ⟨u2, hu2mem, hu2id⟩ := hdtake
  have hu2R : u2 ∈ topological_sort tasks := List.mem_of_mem_take hu2mem
  have h1 : taskMapGet tasks d = some u2 := by
    rw [← hu2id]
    exact inv.res_map u2 hu2R
  have h2 : taskMapGet tasks d = some u := by
    rw [← hud]
    exact inv.res_map u hu
  have huu : u2 = u := by
    rw [h1] at h2
    injection h2
  obtain ⟨i, hi⟩ := List.mem_iff_get?.1 hu2mem
  have hlt : i < ((topological_sort tasks).take j).length := (List.get?_eq_some.1 hi).1
  have hij : i < j := by
    rw [List.length_take] at hlt
    omega
  have hgi : (topological_sort tasks).get? i = some u2 := by
    rw [← List.get?_take hij]
    exact hi
  exact ⟨i, j, hij, huu ▸ hgi, hj⟩

theorem topological_order_respects_deps_witness :
    ((⟨"2", "B", false, ["1"], []⟩ : Task) ∈
        topological_sort [⟨"1", "A", false, [], []⟩, ⟨"2", "B", false, ["1"], []⟩]) ∧
    ("1" ∈ (⟨"2", "B", false, ["1"], []⟩ : Task).depends_on) ∧
    ((⟨"1", "A", false, [], []⟩ : Task) ∈
        topological_sort [⟨"1", "A", false, [], []⟩, ⟨"2", "B", false, ["1"], []⟩]) ∧
    ((⟨"1", "A", false, [], []⟩ : Task).id = "1") ∧
    ∃ i j, i < j ∧
      (topological_sort [⟨"1", "A", false, [], []⟩, ⟨"2", "B", false, ["1"], []⟩]).get? i
        = some ⟨"1", "A", false, [], []⟩ ∧
      (topological_sort [⟨"1", "A", false, [], []⟩, ⟨"2", "B", false, ["1"], []⟩]).get? j
        = some ⟨"2", "B", false, ["1"], []⟩ := by
  have hmem2 : (⟨"2", "B", false, ["1"], []⟩ : Task) ∈
      topological_sort [⟨"1", "A", false, [], []⟩, ⟨"2", "B", false, ["1"], []⟩] :=
    List.mem_cons_of_mem _ (List.mem_cons_self _ _)
  have hmem1 : (⟨"1", "A", false, [], []⟩ : Task) ∈
      topological_sort [⟨"1", "A", false, [], []⟩, ⟨"2", "B", false, ["1"], []⟩] :=
    List.mem_cons_self _ _
  have hdep : "1" ∈ (⟨"2", "B", false, ["1"], []⟩ : Task).depends_on :=
    List.mem_cons_self _ _
  exact ⟨hmem2, hdep, hmem1, rfl,
    topological_order_respects_deps _ _ hmem2 _ hdep _ hmem1 rfl⟩

end ParseTasks

namespace ParseTasks

/-! ### The tie-breaking order of the ready queue -/

lemma kahnLoop_no_deps (tasks : List Task)
    (hdeps : ∀ k, lookupDeps (build_dependency_graph tasks) k = []) :
    ∀ (fuel : Nat) (queue : List String) (indeg : String → Int) (result : List Task),
      queue.length ≤ fuel →
      (∀ x ∈ queue, x ∈ (build_dependency_graph tasks).map Prod.fst) →
      kahnLoop tasks (build_dependency_graph tasks) fuel queue indeg result
        = result ++ (List.insertionSort (fun a b => strLe a b = true) queue).filterMap
            (taskMapGet tasks) := by
  intro fuel
  induction fuel with
  | zero =>
    intro queue indeg result hlen hkeys
    have hq : queue = [] := List.length_eq_zero.1 (by omega)
    subst hq
    simp [kahnLoop]
  | succ fuel ih =>
    intro queue indeg result hlen hkeys
    cases hsort : List.insertionSort (fun a b => strLe a b = true) queue with
    | nil =>
      have hperm := List.perm_insertionSort (fun a b => strLe a b = true) queue
      rw [hsort] at hperm
      have hq : queue = [] := hperm.symm.eq_nil
      subst hq
      simp [kahnLoop]
    | cons current rest =>
      have hperm := List.perm_insertionSort (fun a b => strLe a b = true) queue
      rw [hsort] at hperm
      have hcq : current ∈ queue := hperm.mem_iff.1 (List.mem_cons_self _ _)
      have hck := hkeys current hcq
      obtain ⟨tcur, htm, htid⟩ := taskMapGet_isSome_of_key hck
      obtain ⟨hdf, hds⟩ := decrementPass_spec (build_dependency_graph tasks) current indeg
        ((result ++ [tcur]).map Task.id) (build_keys_nodup tasks)
      have hnew : (decrementPass (build_dependency_graph tasks) current indeg
          ((result ++ [tcur]).map Task.id)).2 = [] := by
        rw [hds]
        apply List.filter_eq_nil.2
        intro k hk
        rw [newlyReady, hdeps k]
        simp
      have hstep : kahnLoop tasks (build_dependency_graph tasks) (fuel + 1) queue indeg result
          = kahnLoop tasks (build_dependency_graph tasks) fuel
              (rest ++ (decrementPass (build_dependency_graph tasks) current indeg
                ((result ++ [tcur]).map Task.id)).2)
              (decrementPass (build_dependency_graph tasks) current indeg
                ((result ++ [tcur]).map Task.id)).1
              (result ++ [tcur]) := by
        simp only [kahnLoop, hsort, htm]
      rw [hstep, hnew, List.append_nil]
      have hsorted : List.Sorted (fun a b => strLe a b = true) (current :: rest) := by
        rw [← hsort]
        exact List.sorted_insertionSort _ queue
      have hrest_eq : List.insertionSort (fun a b => strLe a b = true) rest = rest :=
        List.Sorted.insertionSort_eq (List.Sorted.of_cons hsorted)
      have hrlen : rest.length ≤ fuel := by
        have := hperm.length_eq
        simp at this
        omega
      have hrkeys : ∀ x ∈ rest, x ∈ (build_dependency_graph tasks).map Prod.fst :=
        fun x hx => hkeys x (hperm.mem_iff.1 (List.mem_cons_of_mem _ hx))
      rw [ih rest _ (result ++ [tcur]) hrlen hrkeys, hrest_eq, List.filterMap_cons]
      simp [htm]

lemma filterMap_taskMapGet_map_id (tasks : List Task) :
    ∀ l : List String, (∀ x ∈ l, x ∈ (build_dependency_graph tasks).map Prod.fst) →
      ((l.filterMap (taskMapGet tasks)).map Task.id) = l := by
  intro l
  induction l with
  | nil => intro _; rfl
  | cons a l ih =>
    intro hl
    obtain ⟨t, htm, htid⟩ := taskMapGet_isSome_of_key (hl a (List.mem_cons_self a l))
    rw [List.filterMap_cons, htm, List.map_cons, htid,
      ih (fun x hx => hl x (List.mem_cons_of_mem a hx))]

/-- When no task has dependencies, the output of `topological_sort` is the
input sorted strictly by lexicographic id order. -/
lemma topological_sort_no_deps_sorted :
    ∀ tasks : List Task, (tasks.map Task.id).Nodup →
      (∀ t ∈ tasks, t.depends_on = []) →
      ((topological_sort tasks).map Task.id).Perm (tasks.map Task.id) ∧
        List.Sorted (fun a b => strLt a b = true) ((topological_sort tasks).map Task.id) := by
    intro tasks hids hnodeps
    have hdeps : ∀ k, lookupDeps (build_dependency_graph tasks) k = [] := by
      intro k
      rw [List.eq_nil_iff_forall_not_mem]
      intro d hd
      obtain ⟨t, ht, -, hdt⟩ := (mem_build_deps tasks k d).1 hd
      rw [hnodeps t ht] at hdt
      exact absurd hdt (List.not_mem_nil d)
    have hind0 : ∀ k, initInDegree (build_dependency_graph tasks) k = 0 := by
      intro k
      rw [initInDegree, hdeps k]
      rfl
    have hq0 : ((build_dependency_graph tasks).map Prod.fst).filter
        (fun k => initInDegree (build_dependency_graph tasks) k == 0)
          = (build_dependency_graph tasks).map Prod.fst := by
      apply List.filter_eq_self.2
      intro k _
      rw [hind0 k]
      rfl
    have hrun : topological_sort tasks
        = (List.insertionSort (fun a b => strLe a b = true)
            ((build_dependency_graph tasks).map Prod.fst)).filterMap (taskMapGet tasks) := by
      have h := kahnLoop_no_deps tasks hdeps (build_dependency_graph tasks).length
        (((build_dependency_graph tasks).map Prod.fst).filter
          (fun k => initInDegree (build_dependency_graph tasks) k == 0))
        (initInDegree (build_dependency_graph tasks)) []
        (by rw [hq0]; simp) (by rw [hq0]; exact fun x hx => hx)
      rw [hq0] at h
      simpa [topological_sort, hq0] using h
    have hsortedkeys := List.sorted_insertionSort (fun a b => strLe a b = true)
      ((build_dependency_graph tasks).map Prod.fst)
    have hpermkeys := List.perm_insertionSort (fun a b => strLe a b = true)
      ((build_dependency_graph tasks).map Prod.fst)
    have hmemsorted : ∀ x ∈ List.insertionSort (fun a b => strLe a b = true)
        ((build_dependency_graph tasks).map Prod.fst),
          x ∈ (build_dependency_graph tasks).map Prod.fst :=
      fun x hx => hpermkeys.mem_iff.1 hx
    have hidseq : (topological_sort tasks).map Task.id
        = List.insertionSort (fun a b => strLe a b = true)
            ((build_dependency_graph tasks).map Prod.fst) := by
      rw [hrun]
      exact filterMap_taskMapGet_map_id tasks _ hmemsorted
    constructor
    · rw [hidseq]
      refine hpermkeys.trans ?_
      apply List.perm_of_nodup_nodup_toFinset_eq (build_keys_nodup tasks) hids
      apply Finset.ext
      intro a
      rw [List.mem_toFinset, List.mem_toFinset, mem_build_keys]
      constructor
      · rintro ⟨t, ht, rfl⟩
        exact List.mem_map.2 ⟨t, ht, rfl⟩
      · intro ha
        obtain ⟨t, ht, rfl⟩ := List.mem_map.1 ha
        exact ⟨t, ht, rfl⟩
    · rw [hidseq]
      have hnodup : (List.insertionSort (fun a b => strLe a b = true)
          ((build_dependency_graph tasks).map Prod.fst)).Nodup :=
        hpermkeys.nodup_iff.2 (build_keys_nodup tasks)
      have hand := List.Pairwise.and hsortedkeys hnodup
      exact hand.imp (fun h => strLt_of_le_of_ne h.1 h.2)

lemma charListLe_refl : ∀ l : List Char, charListLe l l = true := by
  intro l
  induction l with
  | nil => rfl
  | cons a l ih =>
    rw [charListLe_cons]
    exact Or.inr ⟨rfl, ih⟩

lemma strLe_refl (a : String) : strLe a a = true :=
  charListLe_refl a.data

lemma kahnLoop_prefix (tasks : List Task) (g : Graph) :
    ∀ (fuel : Nat) (queue : List String) (indeg : String → Int) (result : List Task),
      ∃ s, kahnLoop tasks g fuel queue indeg result = result ++ s := by
  intro fuel
  induction fuel with
  | zero =>
    intro queue indeg result
    exact ⟨[], by simp [kahnLoop]⟩
  | succ fuel ih =>
    intro queue indeg result
    cases hsort : List.insertionSort (fun a b => strLe a b = true) queue with
    | nil => exact ⟨[], by simp [kahnLoop, hsort]⟩
    | cons current rest =>
      cases htm : taskMapGet tasks current with
      | none =>
        obtain ⟨s, hs⟩ := ih (rest ++ (decrementPass g current indeg (result.map Task.id)).2)
          (decrementPass g current indeg (result.map Task.id)).1 result
        refine ⟨s, ?_⟩
        simp only [kahnLoop, hsort, htm]
        exact hs
      | some tcur =>
        obtain ⟨s, hs⟩ := ih
          (rest ++ (decrementPass g current indeg ((result ++ [tcur]).map Task.id)).2)
          (decrementPass g current indeg ((result ++ [tcur]).map Task.id)).1 (result ++ [tcur])
        refine ⟨tcur :: s, ?_⟩
        simp only [kahnLoop, hsort, htm]
        rw [hs, List.append_assoc]
        rfl

/-- C5: at every selection step of `topological_sort`, whenever tasks are
simultaneously ready (the queue of in-degree-zero, not-yet-emitted keys is
nonempty), the task selected next — the one appended to the result at the
current position — is the one whose id is smallest in ascending
lexicographic (string) order among the whole ready queue.  This holds in
every state of the Kahn loop satisfying the loop invariant, hence at every
step of every run, including dependency-bearing runs with mid-loop ties.
Consequently, with no dependencies at all the output is the input sorted
strictly by lexicographic id order, and among ready ids `"10"` and `"2"`,
`"10"` is selected first (string order, not numeric and not document
order). -/
theorem kahn_tie_break_lexicographic :
    (∀ (tasks : List Task) (queue : List String) (indeg : String → Int)
        (result : List Task) (fuel : Nat),
      KInv tasks queue indeg result → queue ≠ [] →
      ∃ current tcur,
        current ∈ queue ∧ (∀ x ∈ queue, strLe current x = true) ∧
        taskMapGet tasks current = some tcur ∧
        (kahnLoop tasks (build_dependency_graph tasks) (fuel + 1) queue indeg result).get?
          result.length = some tcur) ∧
    (∀ tasks : List Task, (tasks.map Task.id).Nodup →
      (∀ t ∈ tasks, t.depends_on = []) →
      ((topological_sort tasks).map Task.id).Perm (tasks.map Task.id) ∧
        List.Sorted (fun a b => strLt a b = true) ((topological_sort tasks).map Task.id)) ∧
    (topological_sort [⟨"2", "A", false, [], []⟩, ⟨"10", "B", false, [], []⟩]).map Task.id
      = ["10", "2"] := by
  refine ⟨?_, topological_sort_no_deps_sorted, rfl⟩
  intro tasks queue indeg result fuel inv hq
  cases hsort : List.insertionSort (fun a b => strLe a b = true) queue with
  | nil =>
    have hperm := List.perm_insertionSort (fun a b => strLe a b = true) queue
    rw [hsort] at hperm
    exact absurd hperm.symm.eq_nil hq
  | cons current rest =>
    obtain ⟨tcur, htm, -⟩ := kahn_step tasks queue indeg result inv current rest hsort
    have hperm : (current :: rest).Perm queue := hsort ▸ List.perm_insertionSort _ queue
    have hsorted : List.Sorted (fun a b => strLe a b = true) (current :: rest) := by
      rw [← hsort]
      exact List.sorted_insertionSort _ queue
    have hmin : ∀ x ∈ queue, strLe current x = true := by
      intro x hx
      rcases List.mem_cons.1 (hperm.mem_iff.2 hx) with rfl | hx2
      · exact strLe_refl x
      · exact (List.sorted_cons.1 hsorted).1 x hx2
    have hstep : kahnLoop tasks (build_dependency_graph tasks) (fuel + 1) queue indeg result
        = kahnLoop tasks (build_dependency_graph tasks) fuel
            (rest ++ (decrementPass (build_dependency_graph tasks) current indeg
              ((result ++ [tcur]).map Task.id)).2)
            (decrementPass (build_dependency_graph tasks) current indeg
              ((result ++ [tcur]).map Task.id)).1
            (result ++ [tcur]) := by
      simp only [kahnLoop, hsort, htm]
    obtain ⟨s, hs⟩ := kahnLoop_prefix tasks (build_dependency_graph tasks) fuel
      (rest ++ (decrementPass (build_dependency_graph tasks) current indeg
        ((result ++ [tcur]).map Task.id)).2)
      (decrementPass (build_dependency_graph tasks) current indeg
        ((result ++ [tcur]).map Task.id)).1
      (result ++ [tcur])
    refine ⟨current, tcur, hperm.mem_iff.1 (List.mem_cons_self _ _), hmin, htm, ?_⟩
    rw [hstep, hs, List.get?_append (by simp), List.get?_concat_length]

end ParseTasks

namespace ParseTasks

/-! ### Completeness of the topological sort for resolvable, acyclic inputs -/

/-- The dependency edge relation among parsed task ids: `DepRel tasks d k`
holds when some parsed task with id `k` declares the dependency `d`
(an edge from `k` to `d`). -/
def DepRel (tasks : List Task) (d k : String) : Prop :=
  ∃ t ∈ tasks, t.id = k ∧ d ∈ t.depends_on

lemma length_eq_of_nodup_mutual {l1 l2 : List String}
    (h1 : l1.Nodup) (h2 : l2.Nodup)
    (hsub1 : ∀ x ∈ l1, x ∈ l2) (hsub2 : ∀ x ∈ l2, x ∈ l1) :
    l1.length = l2.length := by
  have hfin : l1.toFinset = l2.toFinset := by
    apply Finset.ext
    intro a
    rw [List.mem_toFinset, List.mem_toFinset]
    exact ⟨hsub1 a, hsub2 a⟩
  rw [← List.toFinset_card_of_nodup h1, ← List.toFinset_card_of_nodup h2, hfin]

lemma cycle_of_no_sink {r : String → String → Prop} {S : List String}
    (hne : S ≠ []) (hsucc : ∀ k ∈ S, ∃ d ∈ S, r d k) :
    ∃ k, Relation.TransGen r k k := by
  classical
  have hsucc2 : ∀ k : {x // x ∈ S.toFinset}, ∃ d : {x // x ∈ S.toFinset}, r d.val k.val := by
    rintro ⟨k, hk⟩
    obtain ⟨d, hd, hrd⟩ := hsucc k (List.mem_toFinset.1 hk)
    exact ⟨⟨d, List.mem_toFinset.2 hd⟩, hrd⟩
  choose f hf using hsucc2
  obtain ⟨k0, hk0⟩ : ∃ x, x ∈ S.toFinset := by
    cases hS : S with
    | nil => exact absurd hS hne
    | cons a S2 => exact ⟨a, List.mem_toFinset.2 (hS ▸ List.mem_cons_self a S2)⟩
  have hstep : ∀ n : ℕ, r ((f^[n + 1]) ⟨k0, hk0⟩).val ((f^[n]) ⟨k0, hk0⟩).val := by
    intro n
    rw [Function.iterate_succ_apply']
    exact hf _
  have htrans : ∀ m n : ℕ, n < m →
      Relation.TransGen r ((f^[m]) ⟨k0, hk0⟩).val ((f^[n]) ⟨k0, hk0⟩).val := by
    intro m
    induction m with
    | zero => intro n hn; omega
    | succ m ihm =>
      intro n hn
      rcases Nat.lt_succ_iff_lt_or_eq.1 hn with hlt | rfl
      · exact Relation.TransGen.head (hstep m) (ihm n hlt)
      · exact Relation.TransGen.single (hstep n)
  obtain ⟨i, j, hij, hg⟩ :=
    Finite.exists_ne_map_eq_of_infinite (fun n : ℕ => (f^[n]) ⟨k0, hk0⟩)
  rcases Nat.lt_or_ge i j with h | h
  · refine ⟨((f^[i]) ⟨k0, hk0⟩).val, ?_⟩
    have ht := htrans j i h
    rw [← hg] at ht
    exact ht
  · have hji : j < i := lt_of_le_of_ne h (Ne.symm hij)
    refine ⟨((f^[j]) ⟨k0, hk0⟩).val, ?_⟩
    have ht := htrans i j hji
    rw [hg] at ht
    exact ht

/-- The claim that `topological_sort` treats a dependency on an id not
present among the parsed main tasks as automatically satisfied is false:
the in-degree of such a task counts the unresolved reference, which is
never released, so the task is silently dropped.  Here the task list has a
single task, no dependency edges among parsed tasks (hence no cycle), yet
the result is empty. -/
theorem unresolved_dep_drops_task :
    topological_sort [⟨"1", "T", false, ["99"], []⟩] = [] := rfl

/-- C3 (amended): `topological_sort` contains every parsed main task
provided the dependency edges among parsed main tasks form no cycle AND
every id cited in a `depends_on` resolves to a parsed main task.  (Unlike
the executable filter and the wave grouping, `topological_sort` does not
treat an unresolved reference as satisfied: a task citing an unknown id is
permanently blocked and omitted from the result.) -/
theorem topological_sort_complete (tasks : List Task)
    (hids : (tasks.map Task.id).Nodup)
    (hres : ∀ t ∈ tasks, ∀ d ∈ t.depends_on, ∃ u ∈ tasks, u.id = d)
    (hacyc : ∀ k, ¬ Relation.TransGen (DepRel tasks) k k) :
    ∀ t ∈ tasks, t ∈ topological_sort tasks := by
  intro t ht
  by_contra hnot
  obtain ⟨indeg2, inv⟩ := topological_sort_inv tasks
  have hpoppednd : ((topological_sort tasks).map Task.id).Nodup :=
    (List.nodup_append.1 inv.nodup).1
  have htid : t.id ∉ (topological_sort tasks).map Task.id := by
    intro hc
    rw [List.mem_map] at hc
    obtain ⟨u, hu, huid⟩ := hc
    have h1 : taskMapGet tasks t.id = some u := by
      rw [← huid]
      exact inv.res_map u hu
    have h2 : taskMapGet tasks t.id = some t := taskMapGet_of_nodup hids ht
    rw [h1] at h2
    injection h2 with h2
    subst h2
    exact hnot hu
  have hSne : t.id ∈ ((build_dependency_graph tasks).map Prod.fst).filter
      (fun k => decide (k ∉ (topological_sort tasks).map Task.id)) := by
    rw [List.mem_filter]
    exact ⟨(mem_build_keys tasks t.id).2 ⟨t, ht, rfl⟩, by simpa using htid⟩
  have hsucc : ∀ k ∈ ((build_dependency_graph tasks).map Prod.fst).filter
      (fun k => decide (k ∉ (topological_sort tasks).map Task.id)),
      ∃ d ∈ ((build_dependency_graph tasks).map Prod.fst).filter
        (fun k => decide (k ∉ (topological_sort tasks).map Task.id)),
        DepRel tasks d k := by
    intro k hk
    rw [List.mem_filter] at hk
    obtain ⟨hkk, hknp0⟩ := hk
    have hknp : k ∉ (topological_sort tasks).map Task.id := by simpa using hknp0
    have hindne : indeg2 k ≠ 0 := by
      intro h0
      have : k ∈ ([] : List String) := (inv.queue_char k hkk).2 ⟨h0, hknp⟩
      simp at this
    by_contra hnod
    push_neg at hnod
    have hall : ∀ d ∈ lookupDeps (build_dependency_graph tasks) k,
        d ∈ (topological_sort tasks).map Task.id := by
      intro d hd
      by_contra hdnp
      obtain ⟨u, hu, huk, hud⟩ := (mem_build_deps tasks k d).1 hd
      obtain ⟨v, hv, hvd⟩ := hres u hu d hud
      have hdS : d ∈ ((build_dependency_graph tasks).map Prod.fst).filter
          (fun k => decide (k ∉ (topological_sort tasks).map Task.id)) := by
        rw [List.mem_filter]
        exact ⟨(mem_build_keys tasks d).2 ⟨v, hv, hvd⟩, by simpa using hdnp⟩
      exact hnod d hdS ⟨u, hu, huk, hud⟩
    have hleneq : (((topological_sort tasks).map Task.id).filter
        (fun d => decide (d ∈ lookupDeps (build_dependency_graph tasks) k))).length
          = (lookupDeps (build_dependency_graph tasks) k).length := by
      apply length_eq_of_nodup_mutual
      · exact hpoppednd.filter _
      · exact build_deps_nodup tasks k
      · intro x hx
        have := List.of_mem_filter hx
        simpa using this
      · intro x hx
        rw [List.mem_filter]
        exact ⟨hall x hx, by simpa using hx⟩
    have heq := inv.indeg_eq k
    rw [hleneq] at heq
    omega
  obtain ⟨k, hcyc⟩ := cycle_of_no_sink (fun hc => by rw [hc] at hSne; simp at hSne) hsucc
  exact hacyc k hcyc

end ParseTasks

namespace ParseTasks

lemma depRel_pair_iff (d k : String) :
    DepRel [⟨"1", "A", false, [], []⟩, ⟨"2", "B", false, ["1"], []⟩] d k ↔
      (d = "1" ∧ k = "2") := by
  constructor
  · rintro ⟨t, ht, htk, htd⟩
    rcases List.mem_cons.1 ht with rfl | ht2
    · simp at htd
    · rcases List.mem_cons.1 ht2 with rfl | ht3
      · rw [List.mem_singleton] at htd
        exact ⟨htd, htk.symm⟩
      · simp at ht3
  · rintro ⟨rfl, rfl⟩
    exact ⟨⟨"2", "B", false, ["1"], []⟩,
      List.mem_cons_of_mem _ (List.mem_cons_self _ _), rfl, List.mem_cons_self _ _⟩

lemma pair_acyclic :
    ∀ k, ¬ Relation.TransGen
      (DepRel [⟨"1", "A", false, [], []⟩, ⟨"2", "B", false, ["1"], []⟩]) k k := by
  have hsingle : ∀ x y, Relation.TransGen
      (DepRel [⟨"1", "A", false, [], []⟩, ⟨"2", "B", false, ["1"], []⟩]) x y →
        x = "1" ∧ y = "2" := by
    intro x y h
    induction h with
    | single h => exact (depRel_pair_iff _ _).1 h
    | tail htg hr ih => exact ⟨ih.1, ((depRel_pair_iff _ _).1 hr).2⟩
  intro k hk
  obtain ⟨h1, h2⟩ := hsingle k k hk
  rw [h1] at h2
  exact absurd h2 (by decide)

theorem topological_sort_complete_witness :
    ((([⟨"1", "A", false, [], []⟩, ⟨"2", "B", false, ["1"], []⟩] : List Task).map Task.id).Nodup) ∧
    (∀ t ∈ ([⟨"1", "A", false, [], []⟩, ⟨"2", "B", false, ["1"], []⟩] : List Task),
      ∀ d ∈ t.depends_on,
        ∃ u ∈ ([⟨"1", "A", false, [], []⟩, ⟨"2", "B", false, ["1"], []⟩] : List Task),
          u.id = d) ∧
    (∀ k, ¬ Relation.TransGen
       (DepRel [⟨"1", "A", false, [], []⟩, ⟨"2", "B", false, ["1"], []⟩]) k k) ∧
    (∀ t ∈ ([⟨"1", "A", false, [], []⟩, ⟨"2", "B", false, ["1"], []⟩] : List Task),
      t ∈ topological_sort [⟨"1", "A", false, [], []⟩, ⟨"2", "B", false, ["1"], []⟩]) :=
  ⟨by decide, by decide, pair_acyclic,
    topological_sort_complete _ (by decide) (by decide) pair_acyclic⟩

end ParseTasks

namespace ParseTasks

/-! ### Correctness of the parallel wave grouping -/

lemma readyTask_iff (tasks : List Task) (completedIds : List String) (t : Task) :
    readyTask tasks completedIds t = true ↔
      ∀ d ∈ t.depends_on, d ∈ completedIds ∨ ¬ ∃ u ∈ tasks, u.id = d := by
  rw [readyTask, List.all_eq_true]
  apply forall_congr'
  intro d
  apply imp_congr_right
  intro _
  simp [List.any_eq_true]

lemma completed_fold_mem (wave : List Task) (cs : List String) (x : String) :
    x ∈ wave.foldl (fun cs2 t => addId cs2 t.id) cs ↔ x ∈ cs ∨ x ∈ wave.map Task.id := by
  rw [← List.foldl_map, mem_foldl_addId]

lemma parallelLoop_spec (tasks : List Task)
    (hids : (tasks.map Task.id).Nodup)
    (hacyc : ∀ k, ¬ Relation.TransGen (DepRel tasks) k k) :
    ∀ (fuel : Nat) (remaining : List Task) (completedIds : List String),
      remaining.length < fuel →
      remaining.Sublist tasks →
      (∀ t ∈ remaining, t.id ∉ completedIds) →
      (∀ t ∈ remaining, ∀ d ∈ t.depends_on,
        (∃ u ∈ tasks, u.id = d) → d ∉ completedIds → ∃ u ∈ remaining, u.id = d) →
      (∀ t, (∃ w ∈ parallelLoop tasks fuel remaining completedIds, t ∈ w) ↔ t ∈ remaining) ∧
      (∀ i w t, (parallelLoop tasks fuel remaining completedIds).get? i = some w → t ∈ w →
        ∀ d ∈ t.depends_on, ∀ j w2 u,
          (parallelLoop tasks fuel remaining completedIds).get? j = some w2 → u ∈ w2 →
            u.id = d → j < i) := by
  intro fuel
  induction fuel with
  | zero =>
    intro remaining completedIds hlen
    omega
  | succ fuel ih =>
    intro remaining completedIds hlen hsub hdisj hblock
    cases hrem : remaining with
    | nil =>
      subst hrem
      constructor
      · intro t
        simp [parallelLoop]
      · intro i w t hw
        simp [parallelLoop] at hw
    | cons r rs =>
      subst hrem
      have hwave_ne : (r :: rs).filter (readyTask tasks completedIds) ≠ [] := by
        intro hnil
        have hnotready : ∀ t ∈ r :: rs, ¬ readyTask tasks completedIds t = true := by
          intro t ht hready
          have : t ∈ (r :: rs).filter (readyTask tasks completedIds) :=
            List.mem_filter.2 ⟨ht, hready⟩
          rw [hnil] at this
          simp at this
        have hsucc : ∀ k ∈ (r :: rs).map Task.id,
            ∃ d ∈ (r :: rs).map Task.id, DepRel tasks d k := by
          intro k hk
          obtain ⟨t, ht, rfl⟩ := List.mem_map.1 hk
          have hnr := hnotready t ht
          rw [readyTask_iff] at hnr
          push_neg at hnr
          obtain ⟨d, hd, hdnc, hdex⟩ := hnr
          obtain ⟨u, hu, hud⟩ := hblock t ht d hd hdex hdnc
          refine ⟨d, ?_, ⟨t, hsub.mem ht, rfl, hd⟩⟩
          rw [List.mem_map]
          exact ⟨u, hu, hud⟩
        obtain ⟨k, hcyc⟩ := cycle_of_no_sink (by simp) hsucc
        exact hacyc k hcyc
      cases hwave : (r :: rs).filter (readyTask tasks completedIds) with
      | nil => exact absurd hwave hwave_ne
      | cons w0 ws =>
        have hloop : parallelLoop tasks (fuel + 1) (r :: rs) completedIds
            = (w0 :: ws) :: parallelLoop tasks fuel
                ((r :: rs).filter (fun t => !(readyTask tasks completedIds t)))
                ((w0 :: ws).foldl (fun cs t => addId cs t.id) completedIds) := by
          simp only [parallelLoop, hwave]
        have hwave_sub : ∀ t ∈ w0 :: ws, t ∈ r :: rs := by
          intro t ht
          rw [← hwave] at ht
          exact List.mem_of_mem_filter ht
        have hwave_ready : ∀ t ∈ w0 :: ws, readyTask tasks completedIds t = true := by
          intro t ht
          rw [← hwave] at ht
          exact List.of_mem_filter ht
        have hpart : ∀ t ∈ r :: rs, t ∈ w0 :: ws ∨
            t ∈ (r :: rs).filter (fun t => !(readyTask tasks completedIds t)) := by
          intro t ht
          by_cases hready : readyTask tasks completedIds t = true
          · left
            rw [← hwave]
            exact List.mem_filter.2 ⟨ht, hready⟩
          · right
            exact List.mem_filter.2 ⟨ht, by simpa using hready⟩
        have hrem2_sub : ∀ t ∈ (r :: rs).filter (fun t => !(readyTask tasks completedIds t)),
            t ∈ r :: rs := fun t ht => List.mem_of_mem_filter ht
        have htasks_inj : ∀ u ∈ tasks, ∀ v ∈ tasks, u.id = v.id → u = v :=
          fun u hu v hv h => List.inj_on_of_nodup_map hids hu hv h
        have hlen2 : ((r :: rs).filter (fun t => !(readyTask tasks completedIds t))).length
            < fuel := by
          have h1 : ((r :: rs).filter (fun t => !(readyTask tasks completedIds t))).length
              < (r :: rs).length := length_filter_not_lt hwave_ne
          omega
        have hsub2 : ((r :: rs).filter
            (fun t => !(readyTask tasks completedIds t))).Sublist tasks :=
          (List.filter_sublist _).trans hsub
        have hdisj2 : ∀ t ∈ (r :: rs).filter (fun t => !(readyTask tasks completedIds t)),
            t.id ∉ (w0 :: ws).foldl (fun cs u => addId cs u.id) completedIds := by
          intro t ht hc
          rw [completed_fold_mem] at hc
          rcases hc with hc | hc
          · exact hdisj t (hrem2_sub t ht) hc
          · obtain ⟨u, hu, hut⟩ := List.mem_map.1 hc
            have hueq : u = t := htasks_inj u (hsub.mem (hwave_sub u hu)) t
              (hsub.mem (hrem2_sub t ht)) hut
            subst hueq
            have h1 := hwave_ready u hu
            have h2 := List.of_mem_filter ht
            rw [h1] at h2
            simp at h2
        have hblock2 : ∀ t ∈ (r :: rs).filter (fun t => !(readyTask tasks completedIds t)),
            ∀ d ∈ t.depends_on, (∃ u ∈ tasks, u.id = d) →
              d ∉ (w0 :: ws).foldl (fun cs u => addId cs u.id) completedIds →
                ∃ u ∈ (r :: rs).filter (fun t => !(readyTask tasks completedIds t)),
                  u.id = d := by
          intro t ht d hd hex hdc
          rw [completed_fold_mem] at hdc
          push_neg at hdc
          obtain ⟨u, hu, hud⟩ := hblock t (hrem2_sub t ht) d hd hex hdc.1
          rcases hpart u hu with hu2 | hu2
          · exact absurd (List.mem_map.2 ⟨u, hu2, hud⟩) (by simpa using hdc.2)
          · exact ⟨u, hu2, hud⟩
        obtain ⟨ihu, iho⟩ := ih _ _ hlen2 hsub2 hdisj2 hblock2
        rw [hloop]
        constructor
        · intro t
          constructor
          · rintro ⟨w, hw, htw⟩
            rcases List.mem_cons.1 hw with rfl | hw2
            · exact hwave_sub t htw
            · exact hrem2_sub t ((ihu t).1 ⟨w, hw2, htw⟩)
          · intro ht
            rcases hpart t ht with h | h
            · exact ⟨w0 :: ws, List.mem_cons_self _ _, h⟩
            · obtain ⟨w, hw, htw⟩ := (ihu t).2 h
              exact ⟨w, List.mem_cons_of_mem _ hw, htw⟩
        · intro i w t hiw htw d hd j w2 u hjw2 huw2 hud
          cases i with
          | zero =>
            exfalso
            rw [List.get?_cons_zero] at hiw
            injection hiw with hiw
            subst hiw
            have hready := hwave_ready t htw
            rw [readyTask_iff] at hready
            have humem : u ∈ r :: rs := by
              cases j with
              | zero =>
                rw [List.get?_cons_zero] at hjw2
                injection hjw2 with hjw2
                subst hjw2
                exact hwave_sub u huw2
              | succ j2 =>
                rw [List.get?_cons_succ] at hjw2
                exact hrem2_sub u ((ihu u).1 ⟨w2, List.get?_mem hjw2, huw2⟩)
            rcases hready d hd with hc | hc
            · exact hdisj u humem (hud ▸ hc)
            · exact hc ⟨u, hsub.mem humem, hud⟩
          | succ i2 =>
            rw [List.get?_cons_succ] at hiw
            cases j with
            | zero => omega
            | succ j2 =>
              rw [List.get?_cons_succ] at hjw2
              have := iho i2 w t hiw htw d hd j2 w2 u hjw2 huw2 hud
              omega

end ParseTasks

namespace ParseTasks

/-- C4: for a task list with distinct ids (data-model invariant) whose
dependency edges among parsed tasks form no cycle, the union of the waves
returned by `get_parallel_tasks` is exactly the set of not-completed main
tasks, and whenever a task in wave `i` declares a dependency id `d` and a
task with id `d` is placed in some wave `j`, then `j < i` (dependencies on
ids not among the parsed tasks, or on already-completed tasks, count as
satisfied and place no constraint). -/
theorem parallel_waves_correct (tasks : List Task)
    (hids : (tasks.map Task.id).Nodup)
    (hacyc : ∀ k, ¬ Relation.TransGen (DepRel tasks) k k) :
    (∀ t, (∃ w ∈ get_parallel_tasks tasks, t ∈ w) ↔ (t ∈ tasks ∧ t.completed = false)) ∧
    (∀ i w t, (get_parallel_tasks tasks).get? i = some w → t ∈ w →
      ∀ d ∈ t.depends_on, ∀ j w2 u, (get_parallel_tasks tasks).get? j = some w2 →
        u ∈ w2 → u.id = d → j < i) := by
  have htasks_inj : ∀ u ∈ tasks, ∀ v ∈ tasks, u.id = v.id → u = v :=
    fun u hu v hv h => List.inj_on_of_nodup_map hids hu hv h
  have hrem_sub : (tasks.filter (fun t => !t.completed)).Sublist tasks :=
    List.filter_sublist _
  have hdisj0 : ∀ t ∈ tasks.filter (fun t => !t.completed),
      t.id ∉ (tasks.filter (fun t => t.completed)).foldl (fun cs u => addId cs u.id) [] := by
    intro t ht hc
    rw [completed_fold_mem] at hc
    rcases hc with hc | hc
    · simp at hc
    · obtain ⟨u, hu, hut⟩ := List.mem_map.1 hc
      have hueq : u = t := htasks_inj u (List.mem_of_mem_filter hu) t
        (List.mem_of_mem_filter ht) hut
      subst hueq
      have h1 := List.of_mem_filter hu
      have h2 := List.of_mem_filter ht
      rw [h1] at h2
      simp at h2
  have hblock0 : ∀ t ∈ tasks.filter (fun t => !t.completed), ∀ d ∈ t.depends_on,
      (∃ u ∈ tasks, u.id = d) →
      d ∉ (tasks.filter (fun t => t.completed)).foldl (fun cs u => addId cs u.id) [] →
      ∃ u ∈ tasks.filter (fun t => !t.completed), u.id = d := by
    rintro t ht d hd ⟨u, hu, hud⟩ hdc
    by_cases hc : u.completed
    · exfalso
      apply hdc
      rw [completed_fold_mem]
      exact Or.inr (List.mem_map.2 ⟨u, List.mem_filter.2 ⟨hu, by simpa using hc⟩, hud⟩)
    · exact ⟨u, List.mem_filter.2 ⟨hu, by simpa using hc⟩, hud⟩
  have h := parallelLoop_spec tasks hids hacyc
    ((tasks.filter (fun t => !t.completed)).length + 1)
    (tasks.filter (fun t => !t.completed))
    ((tasks.filter (fun t => t.completed)).foldl (fun cs u => addId cs u.id) [])
    (by omega) hrem_sub hdisj0 hblock0
  constructor
  · intro t
    have hu := h.1 t
    rw [List.mem_filter] at hu
    simpa [get_parallel_tasks] using hu
  · have ho := h.2
    simpa [get_parallel_tasks] using ho

theorem parallel_waves_correct_witness :
    ((([⟨"1", "A", false, [], []⟩, ⟨"2", "B", false, ["1"], []⟩] : List Task).map Task.id).Nodup) ∧
    (∀ k, ¬ Relation.TransGen
       (DepRel [⟨"1", "A", false, [], []⟩, ⟨"2", "B", false, ["1"], []⟩]) k k) ∧
    ((∀ t, (∃ w ∈ get_parallel_tasks [⟨"1", "A", false, [], []⟩, ⟨"2", "B", false, ["1"], []⟩],
        t ∈ w) ↔
        (t ∈ ([⟨"1", "A", false, [], []⟩, ⟨"2", "B", false, ["1"], []⟩] : List Task) ∧
          t.completed = false)) ∧
      (∀ i w t,
        (get_parallel_tasks [⟨"1", "A", false, [], []⟩, ⟨"2", "B", false, ["1"], []⟩]).get? i
            = some w → t ∈ w →
        ∀ d ∈ t.depends_on, ∀ j w2 u,
          (get_parallel_tasks [⟨"1", "A", false, [], []⟩, ⟨"2", "B", false, ["1"], []⟩]).get? j
              = some w2 → u ∈ w2 → u.id = d → j < i)) :=
  ⟨by decide, pair_acyclic, parallel_waves_correct _ (by decide) pair_acyclic⟩

end ParseTasks

namespace ParseTasks

/-! ### Indented main-task-shaped lines are ignored entirely -/

lemma takeWhile_append_all {p : Char → Bool} {l1 : List Char} (l2 : List Char)
    (h : ∀ a ∈ l1, p a = true) :
    (l1 ++ l2).takeWhile p = l1 ++ l2.takeWhile p := by
  induction l1 with
  | nil => rfl
  | cons a l1 ih =>
    rw [List.cons_append, List.takeWhile_cons, h a (List.mem_cons_self a l1),
      ih (fun a ha => h a (List.mem_cons_of_mem _ ha))]
    simp

lemma dropWhile_append_all {p : Char → Bool} {l1 : List Char} (l2 : List Char)
    (h : ∀ a ∈ l1, p a = true) :
    (l1 ++ l2).dropWhile p = l2.dropWhile p := by
  induction l1 with
  | nil => rfl
  | cons a l1 ih =>
    rw [List.cons_append, List.dropWhile_cons, h a (List.mem_cons_self a l1)]
    simp only [if_pos]
    exact ih (fun a ha => h a (List.mem_cons_of_mem _ ha))

lemma space_ne_dash {a : Char} (h : isPySpace a = true) : ¬ a = '-' := by
  intro hc
  rw [hc] at h
  exact absurd h (by decide)

lemma digit_ne {a b : Char} (h : isPyDigit a = true) (hb : isPyDigit b = false) :
    ¬ a = b := by
  intro hc
  rw [hc, hb] at h
  cases h

lemma digit_not_space {a : Char} (h : isPyDigit a = true) : isPySpace a = false := by
  rw [isPySpace]
  have h1 : a ≠ ' ' := digit_ne h (by decide)
  have h2 : a ≠ '\t' := digit_ne h (by decide)
  have h3 : a ≠ '\n' := digit_ne h (by decide)
  have h4 : a ≠ '\r' := digit_ne h (by decide)
  have h5 : a ≠ '\x0b' := digit_ne h (by decide)
  have h6 : a ≠ '\x0c' := digit_ne h (by decide)
  simp [h1, h2, h3, h4, h5, h6]

end ParseTasks

namespace ParseTasks

lemma matchMainTask_not_dash (w0 : Char) (tail : List Char) (h : ¬ w0 = '-') :
    matchMainTask ⟨w0 :: tail⟩ = none := by
  rw [matchMainTask]
  split
  · rename_i heq
    rw [List.cons.injEq] at heq
    exact absurd heq.1 h
  · rfl

lemma matchSubtask_undotted (w0 : Char) (ws : List Char) (c : Char)
    (d0 : Char) (ds : List Char) (r : Char) (rest : List Char)
    (hw0 : isPySpace w0 = true) (hwsp : ∀ a ∈ ws, isPySpace a = true)
    (hd0 : isPyDigit d0 = true) (hds : ∀ a ∈ ds, isPyDigit a = true)
    (hr : isPyDigit r = false) :
    matchSubtask ⟨(w0 :: ws) ++ '-' :: ' ' :: '[' :: c :: ']' :: ' ' ::
      ((d0 :: ds) ++ '.' :: r :: rest)⟩ = none := by
  have hallws : ∀ a ∈ w0 :: ws, isPySpace a = true := by
    intro a ha
    rcases List.mem_cons.1 ha with rfl | ha2
    · exact hw0
    · exact hwsp a ha2
  have halldig : ∀ a ∈ d0 :: ds, isPyDigit a = true := by
    intro a ha
    rcases List.mem_cons.1 ha with rfl | ha2
    · exact hd0
    · exact hds a ha2
  have hd0sp : isPySpace d0 = false := digit_not_space hd0
  have htake : ((w0 :: ws) ++ '-' :: ' ' :: '[' :: c :: ']' :: ' ' ::
      ((d0 :: ds) ++ '.' :: r :: rest)).takeWhile isPySpace = w0 :: ws := by
    rw [takeWhile_append_all _ hallws]
    simp [List.takeWhile_cons, (by decide : isPySpace '-' = false)]
  have hdrop : ((w0 :: ws) ++ '-' :: ' ' :: '[' :: c :: ']' :: ' ' ::
      ((d0 :: ds) ++ '.' :: r :: rest)).dropWhile isPySpace
        = '-' :: ' ' :: '[' :: c :: ']' :: ' ' :: ((d0 :: ds) ++ '.' :: r :: rest) := by
    rw [dropWhile_append_all _ hallws, List.dropWhile_cons]
    simp [(by decide : isPySpace '-' = false)]
  have hafter : List.dropWhile isPySpace (' ' :: ((d0 :: ds) ++ '.' :: r :: rest))
      = (d0 :: ds) ++ '.' :: r :: rest := by
    rw [List.dropWhile_cons, if_pos (by decide : isPySpace ' ' = true),
      List.cons_append, List.dropWhile_cons]
    simp [hd0sp]
  have htakedig : List.takeWhile isPyDigit ((d0 :: ds) ++ '.' :: r :: rest)
      = d0 :: ds := by
    rw [takeWhile_append_all _ halldig]
    simp [List.takeWhile_cons, (by decide : isPyDigit ('.' : Char) = false)]
  have hdropdig : List.dropWhile isPyDigit ((d0 :: ds) ++ '.' :: r :: rest)
      = '.' :: r :: rest := by
    rw [dropWhile_append_all _ halldig, List.dropWhile_cons]
    simp [(by decide : isPyDigit ('.' : Char) = false)]
  rw [matchSubtask]
  simp only [htake, hdrop]
  rw [if_neg (by simp : ¬ (w0 :: ws) = [])]
  by_cases hcx : (c = ' ' || c = 'x') = true
  · rw [if_pos hcx]
    simp only [show skipStar (' ' :: ((d0 :: ds) ++ '.' :: r :: rest))
        = ' ' :: ((d0 :: ds) ++ '.' :: r :: rest) from rfl,
      hafter, htakedig, hdropdig]
    rw [if_pos (Or.inr (by simp [List.takeWhile_cons, hr]))]
  · rw [if_neg hcx]

lemma matchDepends_bracket (w0 : Char) (ws : List Char) (c : Char) (tail : List Char)
    (hw0 : isPySpace w0 = true) (hwsp : ∀ a ∈ ws, isPySpace a = true) :
    matchDepends ⟨(w0 :: ws) ++ '-' :: ' ' :: '[' :: c :: tail⟩ = none := by
  have hallws : ∀ a ∈ w0 :: ws, isPySpace a = true := by
    intro a ha
    rcases List.mem_cons.1 ha with rfl | ha2
    · exact hw0
    · exact hwsp a ha2
  have htake : ((w0 :: ws) ++ '-' :: ' ' :: '[' :: c :: tail).takeWhile isPySpace
      = w0 :: ws := by
    rw [takeWhile_append_all _ hallws]
    simp [List.takeWhile_cons, (by decide : isPySpace '-' = false)]
  have hdrop : ((w0 :: ws) ++ '-' :: ' ' :: '[' :: c :: tail).dropWhile isPySpace
      = '-' :: ' ' :: '[' :: c :: tail := by
    rw [dropWhile_append_all _ hallws, List.dropWhile_cons]
    simp [(by decide : isPySpace '-' = false)]
  have hdrop2 : List.dropWhile isPySpace (' ' :: '[' :: c :: tail) = '[' :: c :: tail := by
    rw [List.dropWhile_cons, if_pos (by decide : isPySpace ' ' = true),
      List.dropWhile_cons]
    simp [(by decide : isPySpace '[' = false)]
  rw [matchDepends]
  simp only [htake, hdrop, hdrop2]
  rw [if_neg (by simp : ¬ (w0 :: ws) = [])]
  rw [if_neg ?hne]
  case hne =>
    intro heq
    rw [show List.take 12 ('[' :: c :: tail) = '[' :: List.take 11 (c :: tail) from rfl,
      List.cons.injEq] at heq
    exact absurd heq.1 (by decide)

end ParseTasks

namespace ParseTasks

lemma stepLine_id_of_none (tasks : List Task) (line : String)
    (h1 : matchMainTask line = none) (h2 : matchSubtask line = none)
    (h3 : matchDepends line = none) :
    stepLine tasks line = tasks := by
  cases tasks <;> simp [stepLine, h1, h2, h3]

/-- C10: an indented line that otherwise has the main-task shape — leading
whitespace, `- [c]` with a space-or-`x` checkbox, an un-dotted decimal id,
a literal dot and a title whose first character is an ASCII character other
than a decimal digit (on the ASCII range the embedded digit class coincides
with Python's `\d`, which beyond ASCII also accepts other Unicode decimal
digits) — is ignored entirely by the parser: the main-task pattern is
anchored at the start of the line, the subtask pattern requires a dotted
`<int>.<int>` id, and the dependency pattern requires `_depends_on:`; hence
inserting such a line anywhere in a document leaves the parse result
unchanged. -/
theorem indented_undotted_line_ignored (w0 : Char) (ws : List Char) (c : Char)
    (d0 : Char) (ds : List Char) (r : Char) (rest : List Char)
    (before after : List String)
    (hw0 : isPySpace w0 = true) (hwsp : ∀ a ∈ ws, isPySpace a = true)
    (hc : c = ' ' ∨ c = 'x')
    (hd0 : isPyDigit d0 = true) (hds : ∀ a ∈ ds, isPyDigit a = true)
    (hr : isPyDigit r = false) (hra : r.toNat < 128) :
    parse_tasks_lines (before ++ (⟨(w0 :: ws) ++ '-' :: ' ' :: '[' :: c :: ']' :: ' ' ::
        ((d0 :: ds) ++ '.' :: r :: rest)⟩ : String) :: after)
      = parse_tasks_lines (before ++ after) := by
  have h1 : matchMainTask ⟨(w0 :: ws) ++ '-' :: ' ' :: '[' :: c :: ']' :: ' ' ::
      ((d0 :: ds) ++ '.' :: r :: rest)⟩ = none :=
    matchMainTask_not_dash w0 _ (space_ne_dash hw0)
  have h2 := matchSubtask_undotted w0 ws c d0 ds r rest hw0 hwsp hd0 hds hr
  have h3 := matchDepends_bracket w0 ws c
    (']' :: ' ' :: ((d0 :: ds) ++ '.' :: r :: rest)) hw0 hwsp
  rw [parse_tasks_lines, parse_tasks_lines, List.foldl_append, List.foldl_append,
    List.foldl_cons, stepLine_id_of_none _ _ h1 h2 h3]

theorem indented_undotted_line_ignored_witness :
    (isPySpace ' ' = true) ∧ (∀ a ∈ [' '], isPySpace a = true) ∧
    ((' ' : Char) = ' ' ∨ (' ' : Char) = 'x') ∧ (isPyDigit '3' = true) ∧
    (∀ a ∈ ([] : List Char), isPyDigit a = true) ∧ (isPyDigit ' ' = false) ∧
    ((' ' : Char).toNat < 128) ∧
    parse_tasks_lines (["- [ ] 1. A"] ++ (⟨(' ' :: [' ']) ++ '-' :: ' ' :: '[' :: ' ' :: ']' :: ' ' ::
        (('3' :: []) ++ '.' :: ' ' :: "Title".data)⟩ : String) :: ["- [ ] 2. B"])
      = parse_tasks_lines (["- [ ] 1. A"] ++ ["- [ ] 2. B"]) :=
  ⟨by decide, by decide, Or.inl rfl, by decide, by decide, by decide, by decide,
    indented_undotted_line_ignored ' ' [' '] ' ' '3' [] ' ' "Title".data
      ["- [ ] 1. A"] ["- [ ] 2. B"] (by decide) (by decide) (Or.inl rfl)
      (by decide) (by decide) (by decide) (by decide)⟩

theorem kahn_tie_break_lexicographic_witness :
    ((["1", "10"] : List String) ≠ [] ∧
      (∃ current tcur,
        current ∈ (["1", "10"] : List String) ∧
        (∀ x ∈ (["1", "10"] : List String), strLe current x = true) ∧
        taskMapGet [⟨"1", "A", false, [], []⟩, ⟨"2", "B", false, ["1"], []⟩,
          ⟨"10", "C", false, [], []⟩] current = some tcur ∧
        (kahnLoop [⟨"1", "A", false, [], []⟩, ⟨"2", "B", false, ["1"], []⟩,
            ⟨"10", "C", false, [], []⟩]
          (build_dependency_graph [⟨"1", "A", false, [], []⟩, ⟨"2", "B", false, ["1"], []⟩,
            ⟨"10", "C", false, [], []⟩])
          (2 + 1) ["1", "10"]
          (initInDegree (build_dependency_graph [⟨"1", "A", false, [], []⟩,
            ⟨"2", "B", false, ["1"], []⟩, ⟨"10", "C", false, [], []⟩]))
          []).get? 0 = some tcur)) ∧
    (((([⟨"2", "A", false, [], []⟩, ⟨"10", "B", false, [], []⟩] : List Task).map Task.id).Nodup) ∧
      (∀ t ∈ ([⟨"2", "A", false, [], []⟩, ⟨"10", "B", false, [], []⟩] : List Task),
        t.depends_on = []) ∧
      (((topological_sort [⟨"2", "A", false, [], []⟩, ⟨"10", "B", false, [], []⟩]).map Task.id).Perm
          (([⟨"2", "A", false, [], []⟩, ⟨"10", "B", false, [], []⟩] : List Task).map Task.id) ∧
        List.Sorted (fun a b => strLt a b = true)
          ((topological_sort [⟨"2", "A", false, [], []⟩, ⟨"10", "B", false, [], []⟩]).map Task.id))) :=
  ⟨⟨by decide,
    kahn_tie_break_lexicographic.1 _ ["1", "10"] _ [] 2
      (kahnInit_inv [⟨"1", "A", false, [], []⟩, ⟨"2", "B", false, ["1"], []⟩,
        ⟨"10", "C", false, [], []⟩]) (by decide)⟩,
   by decide, by decide,
   kahn_tie_break_lexicographic.2.1 _ (by decide) (by decide)⟩

end ParseTasks
